import Mathlib

/-!
Verification of the declarative scene-tree interpreter of mol-view-spec
(frontend/src/app-model/mvs-extension): a shallow embedding in Lean 4 of
the tree model, the loading compiler, the annotation reference resolver,
the nearest-representation propagator, the color theme composer, the
element-set resolver and the geometric transform builder, together with
theorems about their behaviour.

Conventions of the embedding:
- JavaScript reference identity of tree nodes is modelled by giving every
  node a numeric `id`; theorems that depend on identity assume the ids in
  a tree are pairwise distinct (`NoDupIds`), which observed trees satisfy
  by construction (each JS object occurrence is a distinct key).
- JS `Map` objects are modelled as association lists with an
  overwrite-or-append `mset` operation; `Map.get` is `List.lookup`.
- `undefined`/`null` are modelled with `Option` (collapsed where the code
  collapses them, e.g. via `??` or `isDefined`).
- Functions that `throw` are modelled with `Except String`.
- Numbers fed to the geometric transform builder are modelled as `Rat`;
  each concrete instance treated below is exact in binary floating point,
  so the rational computation agrees with the JS one on those inputs.
-/

namespace MVSpec

/-! ## JS array model and `extend` (helpers/utils.ts)

A JS array is a list of `Option`-elements (`none` is a hole / `undefined`).
Reading out of range yields `undefined`; growing `length` pads with holes.
`extend(dst, src)` mutates `dst`; the mutation is modelled by returning
the final contents of `dst`.  The `aliased` flag instantiates the case
`extend(a, a)` in which `src` and `dst` are the same object, so the loop
reads from the current state of `dst` rather than from a snapshot. -/

/-- Read index `i` of a JS array: out of range or a hole gives `undefined`. -/
def jsGetElem {α : Type} (l : List (Option α)) (i : Nat) : Option α :=
  (l.get? i).join

/-- Assign `length = n` to a JS array: truncates or pads with holes. -/
def jsSetLength {α : Type} (l : List (Option α)) (n : Nat) : List (Option α) :=
  l.take n ++ List.replicate (n - l.length) none

/-- The copy loop of `extend`: `for (i = 0; i < nCopy; i++) dst[offset+i] = src[i]`.
The first argument `i` is the loop counter, the second the remaining
iteration count.  When `aliased` the read goes to the current `dst`. -/
def extendCopyLoop {α : Type} (aliased : Bool) (src : List (Option α)) (offset : Nat) :
    Nat → Nat → List (Option α) → List (Option α)
  | _, 0, dst => dst
  | i, n + 1, dst =>
    let v := if aliased then jsGetElem dst i else jsGetElem src i
    extendCopyLoop aliased src offset (i + 1) n (dst.set (offset + i) v)

/-- `extend(dst, src)` from helpers/utils.ts: captures `offset = dst.length`
and `nCopy = src.length`, grows `dst`, then runs the copy loop.
For the aliased call `extend(a, a)` pass the same list twice and `aliased := true`. -/
def extend {α : Type} (dst src : List (Option α)) (aliased : Bool) : List (Option α) :=
  let offset := dst.length
  let nCopy := src.length
  extendCopyLoop aliased src offset 0 nCopy (jsSetLength dst (offset + nCopy))

/-- The values `src[i], src[i+1], ..., src[i+n-1]` as read by the copy loop. -/
def jsSlice {α : Type} (src : List (Option α)) (i n : Nat) : List (Option α) :=
  (List.range n).map (fun j => jsGetElem src (i + j))

/-! ## Colors (helpers/utils.ts: isHexColorString, decodeColor)

A molstar `Color` is a packed RGB integer; modelled as `Nat`. -/

/-- A hexadecimal digit as accepted by the regex `[0-9A-F]` with flag `i`. -/
def isHexDigitChar (c : Char) : Bool :=
  (48 ≤ c.toNat && c.toNat ≤ 57) || (65 ≤ c.toNat && c.toNat ≤ 70) ||
    (97 ≤ c.toNat && c.toNat ≤ 102)

/-- `isHexColorString`: the string matches `^#([0-9A-F]\x7b3\x7d)\x7b1,2\x7d$` case
insensitively, i.e. a `#` followed by exactly 3 or exactly 6 hex digits. -/
def isHexColorString (s : String) : Bool :=
  match s.data with
  | '#' :: rest => (rest.length == 3 || rest.length == 6) && rest.all isHexDigitChar
  | _ => false

/-- Numeric value of a hex digit. -/
def hexDigitVal (c : Char) : Nat :=
  if 48 ≤ c.toNat && c.toNat ≤ 57 then c.toNat - 48
  else if 65 ≤ c.toNat && c.toNat ≤ 70 then c.toNat - 55
  else if 97 ≤ c.toNat && c.toNat ≤ 102 then c.toNat - 87
  else 0

/-- Modelled from the spec: external molstar `Color.fromHexStyle` on a full-form
hex style string `#rrggbb` parses the six digits into a packed RGB integer, and
yields no color (NaN) on any other shape. -/
def colorFromHexStyle (s : String) : Option Nat :=
  match s.data with
  | '#' :: rest =>
    if rest.length == 6 && rest.all isHexDigitChar then
      some (rest.foldl (fun acc c => 16 * acc + hexDigitVal c) 0)
    else none
  | _ => none

/-- Modelled from the spec: external molstar `ColorNames`, the X11/CSS color-name
table keyed by lowercase name.  A representative fragment is enough for the
properties proved here, which only depend on table membership. -/
def ColorNames : List (String × Nat) :=
  [("black", 0x000000), ("blue", 0x0000FF), ("cyan", 0x00FFFF), ("green", 0x008000),
   ("magenta", 0xFF00FF), ("red", 0xFF0000), ("white", 0xFFFFFF), ("yellow", 0xFFFF00)]

/-- Expand a short-form hex color `#f0f` to the full form `#ff00ff`
(the source template reads the characters at indices 1, 2, 3 and prepends
a hash, without re-checking the first character). -/
def expandShortHex (s : String) : String :=
  match s.data with
  | [_, a, b, c] => String.mk ['#', a, a, b, b, c, c]
  | _ => s

/-- `decodeColor` from helpers/utils.ts: `undefined` stays `undefined`; a valid
3- or 6-digit hex string is parsed (short form expanded first); otherwise the
lowercased string is looked up among the X11 color names; anything else gives
`undefined`.  Total: no input makes it throw. -/
def decodeColor (colorString : Option String) : Option Nat :=
  match colorString with
  | none => none
  | some s0 =>
    let hexResult : Option Nat :=
      if isHexColorString s0 then
        colorFromHexStyle (if s0.length = 4 then expandShortHex s0 else s0)
      else none
    match hexResult with
    | some c => some c
    | none => List.lookup s0.toLower ColorNames

/-! ## Canonical JSON and string hashing (helpers/utils.ts)

JSON values are modelled by a mutual inductive so that every function on them
is structurally recursive (hence kernel computable).  An object field with an
`undefined` value is `fieldU`; `JSON.stringify` with the `sortObjectKeys`
replacer drops such fields and sorts the remaining keys. -/

mutual
inductive Json where
  | jstr (s : String)
  | jnum (n : Int)
  | jbool (b : Bool)
  | jnull
  | jarr (elems : JsonList)
  | jobj (fields : JsonFields)
inductive JsonList where
  | nil
  | cons (head : Json) (tail : JsonList)
inductive JsonFields where
  | nil
  | fieldU (key : String) (tail : JsonFields)
  | field (key : String) (value : Json) (tail : JsonFields)
end

/-- JSON string escaping (quote and backslash; the inputs used by the
interpreter contain no control characters). -/
def jsonEscapeChar (c : Char) : List Char :=
  if c = '"' ∨ c = '\\' then ['\\', c] else [c]

/-- A JSON string literal with surrounding quotes. -/
def jsonQuote (s : String) : String :=
  String.mk ('"' :: s.data.foldr (fun c acc => jsonEscapeChar c ++ acc) ['"'])

/-- Join rendered items with commas, as `JSON.stringify` does. -/
def joinComma : List String → String
  | [] => ""
  | [x] => x
  | x :: rest => x ++ "," ++ joinComma rest

/-- Lexicographic comparison of UTF-16 code unit sequences: the string order
used by the default JS `Array.sort` on keys. -/
def charListLe : List Char → List Char → Bool
  | [], _ => true
  | _ :: _, [] => false
  | a :: as, b :: bs =>
    if a.toNat < b.toNat then true
    else if b.toNat < a.toNat then false
    else charListLe as bs

/-- String order as compared by JS `sort()`. -/
def strLe (a b : String) : Bool :=
  charListLe a.data b.data

/-- Insert a rendered object field into a key-sorted list of rendered fields. -/
def insertByKey (p : String × String) : List (String × String) → List (String × String)
  | [] => [p]
  | q :: rest => if strLe p.1 q.1 then p :: q :: rest else q :: insertByKey p rest

/-- Sort rendered object fields by key (the `Object.keys(obj).sort()` of
`sortObjectKeys`; keys in one object are distinct, so stability is moot). -/
def sortByKey (l : List (String × String)) : List (String × String) :=
  l.foldr insertByKey []

mutual
/-- `canonicalJsonString` from helpers/utils.ts: `JSON.stringify` with a
replacer that sorts object keys and drops `undefined` fields.  Sorting the
rendered fields by key equals sorting the fields and then rendering, since
rendering does not change keys. -/
def canonicalJsonString : Json → String
  | .jstr s => jsonQuote s
  | .jnum n => toString n
  | .jbool b => if b then "true" else "false"
  | .jnull => "null"
  | .jarr es => "[" ++ joinComma (canonJsonList es) ++ "]"
  | .jobj fs =>
    "\x7b" ++
      joinComma ((sortByKey (canonJsonFields fs)).map
        (fun kv => jsonQuote kv.1 ++ ":" ++ kv.2)) ++ "\x7d"
def canonJsonList : JsonList → List String
  | .nil => []
  | .cons h t => canonicalJsonString h :: canonJsonList t
def canonJsonFields : JsonFields → List (String × String)
  | .nil => []
  | .fieldU _ t => canonJsonFields t
  | .field k v t => (k, canonicalJsonString v) :: canonJsonFields t
end

/-- One step of the 31-multiplier string hash in unsigned 32-bit arithmetic;
`(h << 5) - h + c | 0` agrees with `31 * h + c` modulo `2 ^ 32`. -/
def hashStep (h : Nat) (c : Char) : Nat :=
  (31 * h + c.toNat) % 4294967296

/-- The hash loop: the index is incremented both by the for-update and by the
`charCodeAt(i++)` read, so only every other UTF-16 code unit contributes. -/
def hashCharsSkip : Nat → List Char → Nat
  | h, [] => h
  | h, [c] => hashStep h c
  | h, c :: _ :: rest => hashCharsSkip (hashStep h c) rest

/-- Modelled from the spec: external molstar `hashString`, a 31-multiplier
string hash over every other UTF-16 code unit in 32-bit arithmetic, validated
below against the example in the `stringHash` doc comment of helpers/utils.ts:
the string `spanish inquisition` hashes to `bd65e59a`
(theorem `stringHash_doc_example`). -/
def hashString (s : String) : Nat :=
  hashCharsSkip 0 s.data

/-- Lowercase hex digits of `n`, padded to 8 characters
(`uint32hash.toString(16).padStart(8, '0')`). -/
def toHex8 (n : Nat) : String :=
  let ds := Nat.toDigits 16 n
  String.mk (List.replicate (8 - ds.length) '0' ++ ds)

/-- `stringHash` from helpers/utils.ts: 8-hex-character content hash. -/
def stringHash (input : String) : String :=
  toHex8 (hashString input)

/-! ## Selectors (additions/selector.ts, tree params)

The MVS-level `selector` param of a `component`/`color` node is a static
name string, a single row object, or an array of row objects; row objects
are opaque to the interpreter and modelled by tokens. -/

inductive MVSSel where
  | strSel (s : String)
  | rowSel (r : String)
  | rowsSel (rs : List String)
deriving DecidableEq

/-- Opaque molstar expressions produced by the external builders
`rowToExpression` / `rowsToExpression` (helpers/selections.ts). -/
inductive ExprRep where
  | exprFromRow (r : String)
  | exprFromRows (rs : List String)
deriving DecidableEq

/-- The molstar-level `Selector` of additions/selector.ts: a tagged variant
`static` / `expression` / `bundle` / `script` / `annotation`. -/
inductive Selector where
  | staticSel (s : String)
  | exprSel (e : ExprRep)
  | bundleSel (b : String)
  | scriptSel (language expr : String)
  | annotSel (annotationId fieldName : String) (fieldValues : List String)
deriving DecidableEq

/-- `SelectorAll`: the static selector for the whole structure. -/
def SelectorAll : Selector := .staticSel "all"

/-- `componentPropsFromSelector` from utils.ts (load helpers): `undefined`
gives `SelectorAll`; a string gives a static selector; an array of rows or a
single row gives an expression built by the external builders. -/
def componentPropsFromSelector : Option MVSSel → Selector
  | none => SelectorAll
  | some (.strSel s) => .staticSel s
  | some (.rowsSel rs) => .exprSel (.exprFromRows rs)
  | some (.rowSel r) => .exprSel (.exprFromRow r)

/-! ## The tree model (tree/generic)

Modelled from the spec: the generic tree type of tree/generic/tree-schema
(not under src/) is a node with a `kind` tag, a `params` record and an
ordered list of children; `dfs` of tree/generic/tree-utils visits every node
once in document order, pre-visit before the children and post-visit after
them, passing the immediate parent.  The traversals below inline that `dfs`
into each consumer.  The `id` field models JS reference identity of node
objects (see the header note).  `NodeParams` gathers the parameter fields the
verified components read; fields irrelevant to a kind are ignored by it. -/

structure NodeParams where
  uri : String := ""
  format : String := ""
  schema : Option String := none
  block_header : Option String := none
  block_index : Option Int := none
  category_name : Option String := none
  field_name : String := ""
  selector : Option MVSSel := none
  color : Option String := none

mutual
inductive ITree where
  | node (id : Nat) (kind : String) (params : NodeParams) (children : TreeList)
inductive TreeList where
  | nil
  | cons (head : ITree) (tail : TreeList)
end

def ITree.id : ITree → Nat
  | .node i _ _ _ => i

def ITree.kind : ITree → String
  | .node _ k _ _ => k

def ITree.params : ITree → NodeParams
  | .node _ _ p _ => p

def ITree.children : ITree → TreeList
  | .node _ _ _ cs => cs

def TreeList.toList : TreeList → List ITree
  | .nil => []
  | .cons h t => h :: TreeList.toList t

mutual
/-- All nodes of a tree in DFS pre-order (the node before its children). -/
def subtreeNodes : ITree → List ITree
  | .node i k p cs => .node i k p cs :: forestNodes cs
/-- All nodes of a forest in DFS pre-order. -/
def forestNodes : TreeList → List ITree
  | .nil => []
  | .cons t ts => subtreeNodes t ++ forestNodes ts
end

/-- All nodes of a tree in DFS pre-order. -/
def allNodes (t : ITree) : List ITree :=
  subtreeNodes t

/-- The ids of all nodes of a tree, in DFS pre-order. -/
def treeIds (t : ITree) : List Nat :=
  (allNodes t).map ITree.id

/-- The node ids of a tree are pairwise distinct: this models JS reference
identity (every node object occurrence is a distinct `Map` key). -/
def NoDupIds (t : ITree) : Prop :=
  (treeIds t).Nodup

instance (t : ITree) : Decidable (NoDupIds t) := by
  unfold NoDupIds; infer_instance

/-! ## JS `Map` model: association lists with overwrite-or-append `set` -/

/-- `Map.set`: overwrite the entry of key `k` if present, else append
(keys are unique in a JS `Map`, so replacing the first occurrence is the
same operation). -/
def mset {β : Type} : List (Nat × β) → Nat → β → List (Nat × β)
  | [], k, v => [(k, v)]
  | p :: rest, k, v => if p.1 = k then (k, v) :: rest else p :: mset rest k v

/-! ## The loading compiler (utils.ts: loadTree)

A loading action takes the result of loading the parent and the node and
returns a result or `undefined` (the `update` builder and the run context
are threaded by side effect in the source and are invisible to the mapping,
so they are absorbed into the action function).  `loadTree` walks the tree
in DFS pre-order; a node whose kind has a registered action looks up its
parent result (`msRoot` for the root); if that is `undefined` — entry absent
or stored value `undefined` — the node is skipped with a console warning,
otherwise the action result (possibly `undefined`) is recorded under the
node.  A node with no registered action records nothing. -/

/-- A loading action: parent result and node to optional node result. -/
def LoadAction (R : Type) : Type :=
  R → ITree → Option R

/-- The per-kind action table (`LoadingActions`). -/
def LoadingActions (R : Type) : Type :=
  String → Option (LoadAction R)

/-- The visit of one node inside the `dfs` of `loadTree`. -/
def loadVisit {R : Type} (acts : LoadingActions R) (msRoot : R) (t : ITree)
    (parentId : Option Nat) (m : List (Nat × Option R)) : List (Nat × Option R) :=
  match acts t.kind with
  | none => m
  | some action =>
    let msParent : Option R :=
      match parentId with
      | none => some msRoot
      | some pid => (m.lookup pid).join
    match msParent with
    | none => m
    | some mp => mset m t.id (action mp t)

mutual
/-- Process a node and then its subtree (pre-order). -/
def loadNodeGo {R : Type} (acts : LoadingActions R) (msRoot : R) :
    ITree → Option Nat → List (Nat × Option R) → List (Nat × Option R)
  | .node i k p cs, parentId, m =>
    loadForestGo acts msRoot cs (some i) (loadVisit acts msRoot (.node i k p cs) parentId m)
/-- Process the trees of a forest left to right. -/
def loadForestGo {R : Type} (acts : LoadingActions R) (msRoot : R) :
    TreeList → Option Nat → List (Nat × Option R) → List (Nat × Option R)
  | .nil, _, m => m
  | .cons t ts, parentId, m => loadForestGo acts msRoot ts parentId (loadNodeGo acts msRoot t parentId m)
end

/-- `loadTree` from utils.ts, restricted to the node-to-result mapping it
builds (the final atomic commit is host-side).  The root is visited with no
parent, so its effective parent result is the state root `msRoot`. -/
def loadTree {R : Type} (acts : LoadingActions R) (msRoot : R) (t : ITree) :
    List (Nat × Option R) :=
  loadNodeGo acts msRoot t none []

/-! ## Annotation reference resolver (utils.ts: collectAnnotationReferences) -/

def AnnotationFromUriKinds : List String :=
  ["color_from_uri", "component_from_uri", "label_from_uri", "tooltip_from_uri"]

def AnnotationFromSourceKinds : List String :=
  ["color_from_source", "component_from_source", "label_from_source", "tooltip_from_source"]

/-- `blockSpec` from utils.ts: a defined `block_header` selects a block by
header, otherwise the block index (defaulting to 0) is used. -/
def blockSpec (header : Option String) (index : Option Int) : Json :=
  match header with
  | some h => .jobj (.field "name" (.jstr "header")
      (.field "params" (.jobj (.field "header" (.jstr h) .nil)) .nil))
  | none => .jobj (.field "name" (.jstr "index")
      (.field "params" (.jobj (.field "index" (.jnum (index.getD 0)) .nil)) .nil))

/-- Optional object field: an `undefined` value is a `fieldU` entry, dropped
by canonicalization. -/
def optField (k : String) (v : Option Json) (rest : JsonFields) : JsonFields :=
  match v with
  | some j => .field k j rest
  | none => .fieldU k rest

/-- The id-less annotation spec a node contributes, if any: `*_from_uri`
kinds give a `url` source with the uri and format params, `*_from_source`
kinds a `source-cif` source; both carry schema, block and category.
`category_name ?? undefined` collapses `null` to `undefined`. -/
def annoSpecOfNode (t : ITree) : Option Json :=
  if t.kind ∈ AnnotationFromUriKinds then
    some (.jobj (.field "source" (.jobj (.field "name" (.jstr "url")
      (.field "params" (.jobj (.field "url" (.jstr t.params.uri)
        (.field "format" (.jstr t.params.format) .nil))) .nil)))
      (optField "schema" (t.params.schema.map .jstr)
        (.field "cifBlock" (blockSpec t.params.block_header t.params.block_index)
          (optField "cifCategory" (t.params.category_name.map .jstr) .nil)))))
  else if t.kind ∈ AnnotationFromSourceKinds then
    some (.jobj (.field "source" (.jobj (.field "name" (.jstr "source-cif")
      (.field "params" (.jobj .nil) .nil)))
      (optField "schema" (t.params.schema.map .jstr)
        (.field "cifBlock" (blockSpec t.params.block_header t.params.block_index)
          (optField "cifCategory" (t.params.category_name.map .jstr) .nil)))))
  else none

/-- An entry of the `distinctSpecs` registry: the id-less spec together with
its content-derived id (the spread `\x7b ...spec, id \x7d` of the source). -/
structure AnnotationSpec where
  spec : Json
  id : String

/-- State of the collection walk: the registry `distinctSpecs` keyed by
canonical string in insertion order, and `context.annotationMap`. -/
structure CollectState where
  specs : List (String × AnnotationSpec)
  annotationMap : List (Nat × String)

/-- Registry update for one contributed spec: `distinctSpecs[key] ??= ...`
inserts only a fresh key; the node is then mapped to the winning entry id. -/
def collectVisit (st : CollectState) (t : ITree) : CollectState :=
  match annoSpecOfNode t with
  | none => st
  | some sj =>
    let key := canonicalJsonString sj
    let specs1 :=
      if (st.specs.lookup key).isSome then st.specs
      else st.specs ++ [(key, ⟨sj, stringHash key⟩)]
    let winningId :=
      match specs1.lookup key with
      | some sp => sp.id
      | none => stringHash key
    ⟨specs1, mset st.annotationMap t.id winningId⟩

mutual
def collectNodeGo : ITree → CollectState → CollectState
  | .node i k p cs, st => collectForestGo cs (collectVisit st (.node i k p cs))
def collectForestGo : TreeList → CollectState → CollectState
  | .nil, st => st
  | .cons t ts, st => collectForestGo ts (collectNodeGo t st)
end

/-- `collectAnnotationReferences` from utils.ts: the list of distinct
annotation specs in first-encounter DFS order (`Object.values` of a
string-keyed object preserves insertion order for these keys). -/
def collectAnnotationReferences (t : ITree) : List AnnotationSpec :=
  (collectNodeGo t ⟨[], []⟩).specs.map Prod.snd

/-- The `context.annotationMap` built by the same walk. -/
def annotationMapOf (t : ITree) : List (Nat × String) :=
  (collectNodeGo t ⟨[], []⟩).annotationMap

/-! ## Geometric transform builder (utils.ts: transformFromRotationTranslation)

Numbers are modelled as rationals; the matrices reachable through this
construction path (identity, then `fromMat3`, then `setTranslation`) always
keep the projective row `[0,0,0,1]`, so the matrix is represented by its
3x3 block and translation column. -/

structure Mat4R where
  m00 : Rat
  m01 : Rat
  m02 : Rat
  m10 : Rat
  m11 : Rat
  m12 : Rat
  m20 : Rat
  m21 : Rat
  m22 : Rat
  t0 : Rat
  t1 : Rat
  t2 : Rat
deriving DecidableEq

/-- `Mat4.identity()`. -/
def mat4Identity : Mat4R :=
  ⟨1, 0, 0, 0, 1, 0, 0, 0, 1, 0, 0, 0⟩

/-- `Mat4.fromMat3(T, Mat3.fromArray(Mat3(), rotation, 0))`: the nine array
entries fill the 3x3 block in order; the callers guarantee length 9. -/
def mat4FromMat3 (T : Mat4R) (r : List Rat) : Mat4R :=
  { T with
    m00 := r.getD 0 0, m01 := r.getD 1 0, m02 := r.getD 2 0,
    m10 := r.getD 3 0, m11 := r.getD 4 0, m12 := r.getD 5 0,
    m20 := r.getD 6 0, m21 := r.getD 7 0, m22 := r.getD 8 0 }

/-- `Mat4.setTranslation(T, Vec3.fromArray(Vec3(), translation, 0))`. -/
def mat4SetTranslation (T : Mat4R) (tr : List Rat) : Mat4R :=
  { T with t0 := tr.getD 0 0, t1 := tr.getD 1 0, t2 := tr.getD 2 0 }

/-- The numerical tolerance of the validity check (implementation defined). -/
def transformEps : Rat := 1 / 1000000

/-- Modelled from the spec: external molstar `Mat4.isRotationAndTranslation`,
which checks that the matrix is numerically a valid rotation followed by a
translation: orthonormal 3x3 block and determinant within tolerance of +1
(the projective row is `[0,0,0,1]` by construction here). -/
def isRotationAndTranslation (T : Mat4R) : Bool :=
  let r0n := T.m00 * T.m00 + T.m01 * T.m01 + T.m02 * T.m02
  let r1n := T.m10 * T.m10 + T.m11 * T.m11 + T.m12 * T.m12
  let r2n := T.m20 * T.m20 + T.m21 * T.m21 + T.m22 * T.m22
  let d01 := T.m00 * T.m10 + T.m01 * T.m11 + T.m02 * T.m12
  let d02 := T.m00 * T.m20 + T.m01 * T.m21 + T.m02 * T.m22
  let d12 := T.m10 * T.m20 + T.m11 * T.m21 + T.m12 * T.m22
  let det := T.m00 * (T.m11 * T.m22 - T.m12 * T.m21)
    - T.m01 * (T.m10 * T.m22 - T.m12 * T.m20)
    + T.m02 * (T.m10 * T.m21 - T.m11 * T.m20)
  |r0n - 1| ≤ transformEps && |r1n - 1| ≤ transformEps && |r2n - 1| ≤ transformEps &&
    |d01| ≤ transformEps && |d02| ≤ transformEps && |d12| ≤ transformEps &&
    |det - 1| ≤ transformEps

/-- An optional array param is present (JS truthiness: `null`/`undefined`
are falsy, any array — even empty — is truthy) with the wrong length. -/
def badLength (o : Option (List Rat)) (n : Nat) : Bool :=
  match o with
  | some l => l.length != n
  | none => false

def rotationLengthMsg : String :=
  "rotation param for transform node must be array of 9 elements"

def translationLengthMsg : String :=
  "translation param for transform node must be array of 3 elements"

def rotationValidityMsg : String :=
  "rotation param for transform is not a valid rotation matrix"

/-- The matrix assembled from the present params: identity, the rotation
block if a rotation is given, the translation column if one is given. -/
def assembledTransform (rotation translation : Option (List Rat)) : Mat4R :=
  let T1 := match rotation with
    | some r => mat4FromMat3 mat4Identity r
    | none => mat4Identity
  match translation with
  | some tr => mat4SetTranslation T1 tr
  | none => T1

/-- `transformFromRotationTranslation` from utils.ts: length checks on the
present params, assembly starting from the identity, then the numeric
validity check (the interpolated `found ...` suffix of the source messages
is omitted; the theorems only use the leading parameter name). -/
def transformFromRotationTranslation (rotation translation : Option (List Rat)) :
    Except String Mat4R :=
  if badLength rotation 9 then .error rotationLengthMsg
  else if badLength translation 3 then .error translationLengthMsg
  else if isRotationAndTranslation (assembledTransform rotation translation) then
    .ok (assembledTransform rotation translation)
  else .error rotationValidityMsg

/-! ## Color theme composer (utils.ts: colorThemeForNode)

The result type mirrors the `colorTheme` props value: a `uniform` theme
with an optional color value, the annotation color theme (annotation id,
field name, `NoColor` background), or the multilayer theme whose layers
pair a theme with a selector. -/

inductive ColorTheme where
  | uniform (value : Option Nat)
  | annotationDriven (annotationId : String) (fieldName : Option String)
  | layered (layers : List (ColorTheme × Selector))

/-- Modelled from the spec: `DefaultColor` of tree/mvs/mvs-defaults (not under
src/), the implementation-defined default color name. -/
def DefaultColor : String := "white"

/-- Kinds of color-bearing children of a representation node. -/
def isColorKind (k : String) : Bool :=
  k == "color" || k == "color_from_uri" || k == "color_from_source"

/-- `appliesColorToWholeRepr`: a `color` child applies to the whole
representation when its selector is absent or the string `all`; an
annotation-driven color child always does. -/
def appliesColorToWholeRepr (n : ITree) : Bool :=
  if n.kind == "color" then
    n.params.selector.isNone || n.params.selector == some (.strSel "all")
  else true

/-- The non-representation path of `colorThemeForNode` (the switch on the
node kind): an annotation color node with a truthy annotation id gives the
annotation theme, otherwise a uniform theme of the decoded `color` param. -/
def colorThemeLeafFor (amap : List (Nat × String)) (node? : Option ITree) : ColorTheme :=
  let fromAnno : Bool :=
    match node? with
    | some n => n.kind == "color_from_uri" || n.kind == "color_from_source"
    | none => false
  let annotationId : Option String :=
    match node? with
    | some n => if fromAnno then amap.lookup n.id else none
    | none => none
  let fieldName : Option String :=
    match node? with
    | some n => if fromAnno then some n.params.field_name else none
    | none => none
  let colorParam : Option String :=
    match node? with
    | some n => if n.kind == "color" then n.params.color else none
    | none => none
  match annotationId with
  | some aid =>
    if aid = "" then ColorTheme.uniform (decodeColor colorParam)
    else ColorTheme.annotationDriven aid fieldName
  | none => ColorTheme.uniform (decodeColor colorParam)

/-- The layer a color-bearing child contributes: its theme paired with the
selection resolved from its own selector (`undefined` for annotation color
nodes, hence `SelectorAll`). -/
def layerOfChildPair (pr : ITree × ColorTheme) : ColorTheme × Selector :=
  (pr.2, componentPropsFromSelector (if pr.1.kind == "color" then pr.1.params.selector else none))

mutual
/-- `colorThemeForNode` on a present node.  For a representation node the
color-bearing children are filtered and dispatched on their number exactly
as in the source; the themes of the children are computed by the companion
`colorChildPairs` so that the recursion is structural (mapping over the
filtered children equals filtering the mapped pairs, see
`colorChildPairs_filter`). -/
def colorThemeForNodeGo (amap : List (Nat × String)) : ITree → ColorTheme
  | .node i k p cs =>
    if k = "representation" then
      match (colorChildPairs amap cs).filter (fun pr => isColorKind pr.1.kind) with
      | [] => ColorTheme.uniform (decodeColor (some DefaultColor))
      | [pr] =>
        if appliesColorToWholeRepr pr.1 then pr.2
        else ColorTheme.layered [layerOfChildPair pr]
      | pr1 :: pr2 :: rest =>
        ColorTheme.layered ((pr1 :: pr2 :: rest).map layerOfChildPair)
    else colorThemeLeafFor amap (some (.node i k p cs))
/-- Each child of a node paired with its recursively computed theme. -/
def colorChildPairs (amap : List (Nat × String)) : TreeList → List (ITree × ColorTheme)
  | .nil => []
  | .cons c rest => (c, colorThemeForNodeGo amap c) :: colorChildPairs amap rest
end

/-- `colorThemeForNode` from utils.ts (an `undefined` node falls through the
switch to a uniform theme with `undefined` value). -/
def colorThemeForNode (amap : List (Nat × String)) : Option ITree → ColorTheme
  | none => colorThemeLeafFor amap none
  | some t => colorThemeForNodeGo amap t

/-- The color-bearing children of a node, in document order. -/
def colorChildren (n : ITree) : List ITree :=
  (TreeList.toList n.children).filter (fun c => isColorKind c.kind)

/-! ## Element set resolver (additions/selector.ts: ElementSet)

A molstar `Structure` is visible to `ElementSet.fromSelector` only through
`selection.units`, each unit carrying its model id and its element index
array; distinct units may belong to the same model (e.g. assembly or
symmetry copies) and may then even repeat element indices.  The external
query facility behind `substructureFromSelector` (molstar
`createStructureComponent` / `createAnnotationStructureComponent`) is
modelled as an abstract host function. -/

structure StructUnit where
  modelId : String
  elements : List Nat

structure MolStructure where
  units : List StructUnit

/-- The host query facility: given a structure and a selector, the
substructure holding the selected elements. -/
def HostQuery : Type :=
  MolStructure → Selector → MolStructure

/-- `substructureFromSelector` from additions/selector.ts: delegates to the
external component-extraction facility (abstracted as `hq`); the fallback to
`Structure.Empty` for a non-structure result is inside `hq`. -/
def substructureFromSelector (hq : HostQuery) (s : MolStructure) (sel : Selector) :
    MolStructure :=
  hq s sel

/-- Adjacent-pair sortedness check of `sortIfNeeded` (compare function
`(a, b) => a - b`, i.e. ascending). -/
def adjacentSorted : List Nat → Bool
  | [] => true
  | [_] => true
  | a :: b :: rest => a ≤ b && adjacentSorted (b :: rest)

/-- `sortIfNeeded` from helpers/utils.ts, at the ascending comparator the
resolver uses: sort only when some adjacent pair is out of order.  JS
`Array.sort` with `(a, b) => a - b` sorts ascending and keeps duplicates;
it is modelled by an ascending insertion sort, which computes the same
(unique) multiset-preserving ascending arrangement. -/
def sortIfNeeded (l : List Nat) : List Nat :=
  if adjacentSorted l then l else l.insertionSort (· ≤ ·)

/-- An element set entry list: model id to element index array
(`SortedArray.ofSortedArray` wraps the array unchanged). -/
abbrev ElementSetM : Type :=
  List (String × List Nat)

/-- `extend(arrays[unit.model.id] ??= [], unit.elements)`: get-or-create the
per-model array and append the unit elements (see `claim9_thm` for `extend`
behaving as append). -/
def addUnitElems (acc : List (String × List Nat)) (u : StructUnit) :
    List (String × List Nat) :=
  if (acc.lookup u.modelId).isSome then
    acc.map (fun p => if p.1 = u.modelId then (p.1, p.2 ++ u.elements) else p)
  else acc ++ [(u.modelId, u.elements)]

/-- `ElementSet.fromSelector`: an absent structure gives the empty set;
otherwise the selected units are accumulated per model id and each array is
sorted if needed. -/
def ElementSet.fromSelector (hq : HostQuery) (structure? : Option MolStructure)
    (sel : Selector) : ElementSetM :=
  match structure? with
  | none => []
  | some s =>
    let selection := substructureFromSelector hq s sel
    let arrays := selection.units.foldl addUnitElems []
    arrays.map (fun p => (p.1, sortIfNeeded p.2))

/-- A structure element location, as `ElementSet.has` reads it:
`location.unit.model.id` and `location.element`. -/
structure ElemLocation where
  modelId : String
  element : Nat

/-- `ElementSet.has`: look up the model array and test membership
(external `SortedArray.has` is a binary search; on the sorted arrays
produced by `fromSelector` it coincides with membership, which is how it
is modelled). -/
def ElementSet.has (set : ElementSetM) (location : ElemLocation) : Bool :=
  match set.lookup location.modelId with
  | some array => array.contains location.element
  | none => false

/-! ## Nearest-representation propagator (utils.ts: makeNearestReprMap) -/

/-- The post-order visit of the bottom-up pass: a representation node maps
to itself; then a mapped non-structure node pushes its mapping to a parent
that has none yet. -/
def upVisit (m : List (Nat × Nat)) (t : ITree) (p : Option ITree) : List (Nat × Nat) :=
  let m1 := if t.kind = "representation" then mset m t.id t.id else m
  match m1.lookup t.id, p with
  | some v, some pp =>
    if t.kind ≠ "structure" ∧ (m1.lookup pp.id) = none then mset m1 pp.id v else m1
  | _, _ => m1

mutual
/-- Bottom-up pass over a node: children first, then the node visit. -/
def upNodeGo : ITree → Option ITree → List (Nat × Nat) → List (Nat × Nat)
  | .node i k p cs, parent, m => upVisit (upForestGo cs (.node i k p cs) m) (.node i k p cs) parent
/-- Bottom-up pass over a forest (all trees share the parent). -/
def upForestGo : TreeList → ITree → List (Nat × Nat) → List (Nat × Nat)
  | .nil, _, m => m
  | .cons t ts, parent, m => upForestGo ts parent (upNodeGo t (some parent) m)
end

/-- The bottom-up pass of `makeNearestReprMap` on the whole tree. -/
def nearestReprUpMap (t : ITree) : List (Nat × Nat) :=
  upNodeGo t none []

/-- The pre-order visit of the top-down pass: a node whose parent is mapped
is set to the parent mapping (the source sets unconditionally). -/
def downVisit (m : List (Nat × Nat)) (t : ITree) (p : Option ITree) : List (Nat × Nat) :=
  match p with
  | some pp =>
    match m.lookup pp.id with
    | some v => mset m t.id v
    | none => m
  | none => m

mutual
def downNodeGo : ITree → Option ITree → List (Nat × Nat) → List (Nat × Nat)
  | .node i k p cs, parent, m => downForestGo cs (.node i k p cs) (downVisit m (.node i k p cs) parent)
def downForestGo : TreeList → ITree → List (Nat × Nat) → List (Nat × Nat)
  | .nil, _, m => m
  | .cons t ts, parent, m => downForestGo ts parent (downNodeGo t (some parent) m)
end

/-- `makeNearestReprMap` from utils.ts: the bottom-up pass followed by the
top-down pass. -/
def makeNearestReprMap (t : ITree) : List (Nat × Nat) :=
  downNodeGo t none (nearestReprUpMap t)

/-! ## Concrete inputs for counterexamples and witnesses -/

/-- Tree for C1: a root, below it a node of unregistered kind, below that a
node of registered kind. -/
def c1Tree : ITree :=
  .node 0 "root" {} (.cons (.node 1 "x" {} (.cons (.node 2 "y" {} .nil) .nil)) .nil)

/-- Action table for C1: kinds `root` and `y` are registered, `x` is not. -/
def c1Actions : LoadingActions Nat :=
  fun k => if k = "root" ∨ k = "y" then some (fun parentResult _ => some (parentResult + 1)) else none

/-- Tree for C2: two `color_from_uri` nodes whose specs differ only in the
uri (`Aa` versus `Ab`); the differing code unit falls on an index the
hash loop skips, so the two distinct canonical specs share their hash. -/
def c2Tree : ITree :=
  .node 0 "root" {}
    (.cons (.node 1 "color_from_uri" { uri := "Aa", format := "json" } .nil)
      (.cons (.node 2 "color_from_uri" { uri := "Ab", format := "json" } .nil) .nil))

/-- Tree for C3: a structure node with a component child holding a
representation (ids 2, 3) and a second, direct representation child (id 4). -/
def c3Tree : ITree :=
  .node 1 "structure" {}
    (.cons (.node 2 "component" {} (.cons (.node 3 "representation" {} .nil) .nil))
      (.cons (.node 4 "representation" {} .nil) .nil))

/-- Structure for C6: two units of the same model over the same element
indices, as an assembly with two symmetry copies produces. -/
def c6Structure : MolStructure :=
  ⟨[⟨"m", [0, 1]⟩, ⟨"m", [0, 1]⟩]⟩

/-- Host query for C6: the selector `all` selects the whole structure. -/
def c6HostQuery : HostQuery :=
  fun s _ => s

/-- Representation node with no color children (for the C5 witness). -/
def c5ReprNode : ITree :=
  .node 7 "representation" {} .nil

/-- First annotation node of `c2Tree`. -/
def c2NodeA : ITree :=
  .node 1 "color_from_uri" { uri := "Aa", format := "json" } .nil

/-- Second annotation node of `c2Tree`. -/
def c2NodeB : ITree :=
  .node 2 "color_from_uri" { uri := "Ab", format := "json" } .nil

/-- Witness nodes for C2: identical annotation parameters. -/
def c2wNodeA : ITree :=
  .node 1 "color_from_uri" { uri := "Aa", format := "json" } .nil

def c2wNodeB : ITree :=
  .node 2 "color_from_uri" { uri := "Aa", format := "json" } .nil

def c2wTree : ITree :=
  .node 0 "root" {} (.cons c2wNodeA (.cons c2wNodeB .nil))

/-- The common id-less spec of the two witness nodes. -/
def c2wSpec : Json :=
  (annoSpecOfNode c2wNodeA).getD .jnull

/-! ## Derived views of the collection walk (for the dedup-order theorems) -/

/-- The id-less specs contributed by the nodes of a tree, in DFS pre-order. -/
def specScan (t : ITree) : List Json :=
  (allNodes t).filterMap annoSpecOfNode

/-- Canonical strings of the scanned specs, in DFS pre-order: the first
occurrence index of a canonical string in this list is the first DFS
encounter of a node producing that spec. -/
def canonKeys (t : ITree) : List String :=
  (specScan t).map canonicalJsonString

/-- The registry step of `collectVisit`, separated from the map update. -/
def regStep (specs : List (String × AnnotationSpec)) (sj : Json) :
    List (String × AnnotationSpec) :=
  let key := canonicalJsonString sj
  if (specs.lookup key).isSome then specs
  else specs ++ [(key, ⟨sj, stringHash key⟩)]

/-- The registry after scanning a spec sequence. -/
def regFold (specs : List (String × AnnotationSpec)) (l : List Json) :
    List (String × AnnotationSpec) :=
  l.foldl regStep specs

/-- Deduplication keeping first occurrences, with an already-seen set. -/
def dedupFirstFrom (seen : List String) : List String → List String
  | [] => []
  | k :: ks => if k ∈ seen then dedupFirstFrom seen ks else k :: dedupFirstFrom (k :: seen) ks

/-- Invariant of the `distinctSpecs` registry: each entry is keyed by the
canonical string of its spec and carries the hash of that key as id. -/
def RegInv (specs : List (String × AnnotationSpec)) : Prop :=
  ∀ p ∈ specs, canonicalJsonString p.2.spec = p.1 ∧ p.2.id = stringHash p.1

/-! ### Lemmas about the copy loop -/

theorem jsSlice_succ {α : Type} (src : List (Option α)) (i n : Nat) :
    jsSlice src i (n + 1) = jsGetElem src i :: jsSlice src (i + 1) n := by
  simp only [jsSlice, List.range_succ_eq_map, List.map_cons, List.map_map]
  congr 1
  apply List.map_congr_left
  intro a _
  simp only [Function.comp_apply, Nat.succ_eq_add_one]
  congr 1
  omega

theorem jsGetElem_cons_succ {α : Type} (x : Option α) (xs : List (Option α)) (i : Nat) :
    jsGetElem (x :: xs) (i + 1) = jsGetElem xs i := by
  simp [jsGetElem]

theorem jsSlice_cons_shift {α : Type} (x : Option α) (xs : List (Option α)) (i n : Nat) :
    jsSlice (x :: xs) (i + 1) n = jsSlice xs i n := by
  simp only [jsSlice]
  apply List.map_congr_left
  intro j _
  have : i + 1 + j = (i + j) + 1 := by omega
  rw [this, jsGetElem_cons_succ]

theorem jsSlice_self {α : Type} (l : List (Option α)) : jsSlice l 0 l.length = l := by
  induction l with
  | nil => simp [jsSlice]
  | cons x xs ih =>
    rw [List.length_cons, jsSlice_succ, jsSlice_cons_shift]
    have h0 : jsGetElem (x :: xs) 0 = x := by simp [jsGetElem]
    rw [h0, ih]

theorem extendCopyLoop_false_eq {α : Type} (src : List (Option α)) (offset : Nat) :
    ∀ (n i : Nat) (pre post : List (Option α)), pre.length = offset + i → post.length = n →
    extendCopyLoop false src offset i n (pre ++ post) = pre ++ jsSlice src i n := by
  intro n
  induction n with
  | zero =>
    intro i pre post _ hpost
    cases post with
    | nil => simp [extendCopyLoop, jsSlice]
    | cons a l => simp at hpost
  | succ n ih =>
    intro i pre post hpre hpost
    cases post with
    | nil => simp at hpost
    | cons p0 rest =>
      have hset : (pre ++ p0 :: rest).set (offset + i) (jsGetElem src i)
          = (pre ++ [jsGetElem src i]) ++ rest := by
        rw [← hpre, List.set_append]
        simp
      simp only [extendCopyLoop, Bool.false_eq_true, if_false, hset]
      rw [ih (i + 1) (pre ++ [jsGetElem src i]) rest (by simp; omega) (by simpa using hpost)]
      rw [jsSlice_succ]
      simp

theorem extendCopyLoop_read_congr {α : Type} (offset : Nat) :
    ∀ (n i : Nat) (s1 s2 d : List (Option α)),
    (∀ j, i ≤ j → j < i + n → jsGetElem s1 j = jsGetElem s2 j) →
    extendCopyLoop false s1 offset i n d = extendCopyLoop false s2 offset i n d := by
  intro n
  induction n with
  | zero => intro i s1 s2 d _; rfl
  | succ n ih =>
    intro i s1 s2 d h
    simp only [extendCopyLoop, Bool.false_eq_true, if_false]
    rw [h i (le_refl i) (by omega)]
    exact ih (i + 1) s1 s2 _ (fun j h1 h2 => h j (by omega) (by omega))

theorem jsGetElem_set_lt {α : Type} (d : List (Option α)) (m j : Nat) (v : Option α)
    (h : j ≠ m) : jsGetElem (d.set m v) j = jsGetElem d j := by
  simp only [jsGetElem, List.get?_eq_getElem?]
  rw [List.getElem?_set_ne (fun he => h he.symm)]

theorem extendCopyLoop_true_eq_snapshot {α : Type} (src : List (Option α)) (offset : Nat) :
    ∀ (n i : Nat) (d : List (Option α)), i + n ≤ offset →
    extendCopyLoop true src offset i n d = extendCopyLoop false d offset i n d := by
  intro n
  induction n with
  | zero => intro i d _; rfl
  | succ n ih =>
    intro i d hle
    simp only [extendCopyLoop, if_true]
    rw [ih (i + 1) (d.set (offset + i) (jsGetElem d i)) (by omega)]
    apply extendCopyLoop_read_congr
    intro j h1 h2
    apply jsGetElem_set_lt
    omega

theorem jsSetLength_grow {α : Type} (l : List (Option α)) (k : Nat) :
    jsSetLength l (l.length + k) = l ++ List.replicate k none := by
  simp [jsSetLength, List.take_of_length_le (by omega : l.length ≤ l.length + k)]

/-- Claim C9: `extend(dst, src)` leaves `dst` equal to the original `dst`
followed by the original `src` (the void return is modelled by returning
the final contents of `dst`), and the self-append `extend(a, a)` doubles
the array by reading only the pre-call elements. -/
theorem claim9_thm {α : Type} (dst src a : List (Option α)) :
    extend dst src false = dst ++ src ∧ extend a a true = a ++ a := by
  constructor
  · show extendCopyLoop false src dst.length 0 src.length
        (jsSetLength dst (dst.length + src.length)) = dst ++ src
    rw [jsSetLength_grow]
    rw [extendCopyLoop_false_eq src dst.length src.length 0 dst
        (List.replicate src.length none) (by omega) (by simp)]
    rw [jsSlice_self]
  · show extendCopyLoop true a a.length 0 a.length
        (jsSetLength a (a.length + a.length)) = a ++ a
    rw [jsSetLength_grow]
    rw [extendCopyLoop_true_eq_snapshot a a.length a.length 0 _ (by omega)]
    rw [extendCopyLoop_read_congr a.length a.length 0
        (a ++ List.replicate a.length none) a _ ?hread]
    · rw [extendCopyLoop_false_eq a a.length a.length 0 a
          (List.replicate a.length none) (by omega) (by simp)]
      rw [jsSlice_self]
    case hread =>
      intro j _ hj2
      simp only [jsGetElem, List.get?_eq_getElem?, List.getElem?_append_left
        (show j < a.length by omega)]

/-! ### Association-list map lemmas -/

theorem lookup_cons_self {β : Type} (m : List (Nat × β)) (k : Nat) (v : β) :
    List.lookup k ((k, v) :: m) = some v := by
  simp [List.lookup]

theorem lookup_cons_ne {β : Type} (m : List (Nat × β)) (k k' : Nat) (v : β)
    (h : k' ≠ k) : List.lookup k' ((k, v) :: m) = List.lookup k' m := by
  simp only [List.lookup, beq_false_of_ne h]

theorem lookup_mset_self {β : Type} (m : List (Nat × β)) (k : Nat) (v : β) :
    (mset m k v).lookup k = some v := by
  induction m with
  | nil => simp [mset, List.lookup]
  | cons p rest ih =>
    by_cases hk : p.1 = k
    · simp only [mset, if_pos hk, lookup_cons_self]
    · simp only [mset, if_neg hk]
      obtain ⟨a, b⟩ := p
      rw [lookup_cons_ne _ a k b (fun he => hk he.symm)]
      exact ih

theorem lookup_mset_ne {β : Type} (m : List (Nat × β)) (k k' : Nat) (v : β)
    (h : k' ≠ k) : (mset m k v).lookup k' = m.lookup k' := by
  induction m with
  | nil => simp [mset, lookup_cons_ne _ k k' v h]
  | cons p rest ih =>
    obtain ⟨a, b⟩ := p
    by_cases hk : a = k
    · simp only [mset, if_pos hk]
      subst hk
      rw [lookup_cons_ne _ a k' v h, lookup_cons_ne _ a k' b h]
    · simp only [mset, if_neg hk]
      by_cases hka : k' = a
      · subst hka
        rw [lookup_cons_self, lookup_cons_self]
      · rw [lookup_cons_ne _ a k' b hka, lookup_cons_ne _ a k' b hka]
        exact ih

/-! ### Validation of the hash model against the source doc comment -/

/-- The example in the `stringHash` doc comment of helpers/utils.ts:
`spanish inquisition` hashes to `bd65e59a`.  This pins the modelled hash
(31-multiplier over every other code unit) to the implementation. -/
theorem stringHash_doc_example : stringHash "spanish inquisition" = "bd65e59a" := by
  decide

/-! ### C7: absent structure -/

/-- Claim C7: for every selector, resolving against an absent structure
returns the empty element set; the guard returns before any fallible host
call, modelled by the totality of `ElementSet.fromSelector`. -/
theorem claim7_thm (hq : HostQuery) (sel : Selector) :
    ElementSet.fromSelector hq none sel = [] := rfl

/-! ### C6: element sets -/

theorem adjacentSorted_chain (l : List Nat) (h : adjacentSorted l = true) :
    List.Chain' (· ≤ ·) l := by
  induction l with
  | nil => simp
  | cons a rest ih =>
    cases rest with
    | nil => simp
    | cons b rest' =>
      simp only [adjacentSorted, Bool.and_eq_true, decide_eq_true_eq] at h
      exact List.Chain'.cons h.1 (ih h.2)

theorem sortIfNeeded_sorted (l : List Nat) : List.Pairwise (· ≤ ·) (sortIfNeeded l) := by
  unfold sortIfNeeded
  by_cases h : adjacentSorted l = true
  · simp only [h, if_true]
    exact List.chain'_iff_pairwise.mp (adjacentSorted_chain l h)
  · simp only [h, if_false]
    exact List.sorted_insertionSort (· ≤ ·) l

theorem lookup_map_snd {β γ : Type} (l : List (String × β)) (f : β → γ) (k : String) :
    List.lookup k (l.map (fun p => (p.1, f p.2))) = (l.lookup k).map f := by
  induction l with
  | nil => simp
  | cons p rest ih =>
    obtain ⟨a, b⟩ := p
    by_cases hk : k = a
    · subst hk; simp [List.lookup]
    · simp only [List.map_cons, List.lookup, beq_false_of_ne hk]
      exact ih

/-- Claim C6 (amended): the per-model sequences produced by
`ElementSet.fromSelector` are sorted ascending — duplicates are possible
when several units of one model repeat element indices, so they need not be
strictly increasing — and `ElementSet.has` returns true exactly for the
locations whose model id and element index are recorded. -/
theorem claim6_thm (hq : HostQuery) (structure? : Option MolStructure) (sel : Selector) :
    (∀ mId arr, (ElementSet.fromSelector hq structure? sel).lookup mId = some arr →
      List.Pairwise (· ≤ ·) arr) ∧
    (∀ loc : ElemLocation, ElementSet.has (ElementSet.fromSelector hq structure? sel) loc = true ↔
      ∃ arr, (ElementSet.fromSelector hq structure? sel).lookup loc.modelId = some arr ∧
        loc.element ∈ arr) := by
  constructor
  · intro mId arr harr
    cases structure? with
    | none => simp [ElementSet.fromSelector] at harr
    | some s =>
      simp only [ElementSet.fromSelector] at harr
      rw [lookup_map_snd] at harr
      cases hl : List.lookup mId (((substructureFromSelector hq s sel).units).foldl addUnitElems []) with
      | none => rw [hl] at harr; exact Option.noConfusion harr
      | some arr0 =>
        rw [hl] at harr
        simp only [Option.map_some'] at harr
        injection harr with he
        rw [← he]
        exact sortIfNeeded_sorted arr0
  · intro loc
    constructor
    · intro hc
      unfold ElementSet.has at hc
      cases hl : (ElementSet.fromSelector hq structure? sel).lookup loc.modelId with
      | none => rw [hl] at hc; exact absurd hc (by simp)
      | some arr =>
        rw [hl] at hc
        exact ⟨arr, rfl, by simpa using hc⟩
    · rintro ⟨arr, harr, hel⟩
      unfold ElementSet.has
      rw [harr]
      simpa using hel

/-- Claim C6 counterexample: an assembly-like structure with two units of
the same model over the same element indices, resolved with the selector
`all` (host query returning the whole structure): the per-model array is
`[0, 0, 1, 1]`, which is sorted but not strictly increasing, so the indices
are not globally unique per model. -/
theorem claim6_cex :
    ElementSet.fromSelector c6HostQuery (some c6Structure) SelectorAll = [("m", [0, 0, 1, 1])] ∧
    ¬ List.Chain' (· < ·) [0, 0, 1, 1] := by
  refine ⟨by decide, ?_⟩
  intro h
  rw [List.chain'_cons] at h
  exact absurd h.1 (by omega)

/-! ### C4: geometric transform builder -/

/-- Claim C4: `transformFromRotationTranslation` fails with a validation
error naming the offending parameter when a present rotation does not have
exactly 9 entries, when (the rotation length being acceptable) a present
translation does not have exactly 3 entries, and when the assembled matrix
is not numerically a valid rotation plus translation; the identity rotation
with translation `[1, 2, 3]` succeeds and returns the matrix with identity
rotation block and that translation, while the all-ones rotation fails the
validity check. -/
theorem claim4_thm :
    (∀ (l : List Rat) (tr : Option (List Rat)), l.length ≠ 9 →
      transformFromRotationTranslation (some l) tr = .error rotationLengthMsg ∧
        "rotation".data.isPrefixOf rotationLengthMsg.data = true) ∧
    (∀ (ro : Option (List Rat)) (l : List Rat), badLength ro 9 = false → l.length ≠ 3 →
      transformFromRotationTranslation ro (some l) = .error translationLengthMsg ∧
        "translation".data.isPrefixOf translationLengthMsg.data = true) ∧
    (∀ (ro tr : Option (List Rat)), badLength ro 9 = false → badLength tr 3 = false →
      isRotationAndTranslation (assembledTransform ro tr) = false →
      transformFromRotationTranslation ro tr = .error rotationValidityMsg ∧
        "rotation".data.isPrefixOf rotationValidityMsg.data = true) ∧
    transformFromRotationTranslation (some [1, 0, 0, 0, 1, 0, 0, 0, 1]) (some [1, 2, 3]) =
      .ok ⟨1, 0, 0, 0, 1, 0, 0, 0, 1, 1, 2, 3⟩ ∧
    transformFromRotationTranslation (some (List.replicate 9 1)) none =
      .error rotationValidityMsg := by
  have hid : assembledTransform (some [1, 0, 0, 0, 1, 0, 0, 0, 1]) (some [1, 2, 3]) =
      (⟨1, 0, 0, 0, 1, 0, 0, 0, 1, 1, 2, 3⟩ : Mat4R) := rfl
  have hvalid : isRotationAndTranslation (⟨1, 0, 0, 0, 1, 0, 0, 0, 1, 1, 2, 3⟩ : Mat4R) = true := by
    simp only [isRotationAndTranslation, transformEps]
    norm_num
  have hones : assembledTransform (some [1, 1, 1, 1, 1, 1, 1, 1, 1]) none =
      (⟨1, 1, 1, 1, 1, 1, 1, 1, 1, 0, 0, 0⟩ : Mat4R) := rfl
  have hinvalid : isRotationAndTranslation (⟨1, 1, 1, 1, 1, 1, 1, 1, 1, 0, 0, 0⟩ : Mat4R) = false := by
    simp only [isRotationAndTranslation, transformEps]
    norm_num
  refine ⟨?_, ?_, ?_, ?_, ?_⟩
  · intro l tr hl
    have hbad : badLength (some l) 9 = true := by
      simp [badLength, hl]
    refine ⟨?_, by decide⟩
    simp [transformFromRotationTranslation, hbad]
  · intro ro l hro hl
    have hbad : badLength (some l) 3 = true := by
      simp [badLength, hl]
    refine ⟨?_, by decide⟩
    simp [transformFromRotationTranslation, hro, hbad]
  · intro ro tr hro htr hval
    refine ⟨?_, by decide⟩
    simp [transformFromRotationTranslation, hro, htr, hval]
  · simp [transformFromRotationTranslation, badLength, hid, hvalid]
  · simp [transformFromRotationTranslation, badLength, hones, hinvalid]

/-- Witness for C4: the length check fires on a length-2 rotation array. -/
theorem claim4_w :
    transformFromRotationTranslation (some [1, 2]) none = .error rotationLengthMsg ∧
      "rotation".data.isPrefixOf rotationLengthMsg.data = true :=
  claim4_thm.1 [1, 2] none (by decide)

/-! ### C10: decodeColor -/

theorem hex_parse_isSome (s : String) (h : isHexColorString s = true) :
    (colorFromHexStyle (if s.length = 4 then expandShortHex s else s)).isSome = true := by
  unfold isHexColorString at h
  split at h
  case h_2 => exact absurd h (by simp)
  case h_1 rest hd =>
    simp only [Bool.and_eq_true, Bool.or_eq_true, beq_iff_eq] at h
    have hslen : s.length = s.data.length := rfl
    rcases h.1 with h3 | h6
    · -- short form, expanded to six digits
      obtain ⟨a, b, c, habc⟩ := List.length_eq_three.mp h3
      have hlen4 : s.length = 4 := by rw [hslen, hd, habc]; rfl
      rw [if_pos hlen4]
      have hexp : expandShortHex s = String.mk ['#', a, a, b, b, c, c] := by
        unfold expandShortHex
        rw [hd, habc]
      rw [hexp]
      unfold colorFromHexStyle
      have hall : rest.all isHexDigitChar = true := h.2
      rw [habc] at hall
      simp only [List.all_cons, List.all_nil, Bool.and_eq_true, Bool.and_true] at hall
      simp [hall.1, hall.2.1, hall.2.2]
    · -- already full form
      have hlen7 : s.length = 7 := by rw [hslen, hd]; simp [h6]
      rw [if_neg (by omega)]
      unfold colorFromHexStyle
      rw [hd]
      simp [h6, h.2]

/-- Claim C10: `decodeColor` never throws (it is total): `undefined` maps to
`undefined`; a defined string yields a color exactly when it is a valid 3- or
6-digit hex color string or a known X11 color name matched case
insensitively, and `undefined` otherwise; consequently a uniform `color`
node with an unrecognized color string still produces a uniform theme whose
value is `undefined` rather than a construction-time failure. -/
theorem claim10_thm :
    decodeColor none = none ∧
    (∀ s : String, (decodeColor (some s)).isSome =
      (isHexColorString s || (List.lookup s.toLower ColorNames).isSome)) ∧
    (∀ (amap : List (Nat × String)) (i : Nat) (p : NodeParams) (cs : TreeList),
      colorThemeForNode amap (some (.node i "color" p cs)) =
        ColorTheme.uniform (decodeColor p.color)) := by
  refine ⟨rfl, ?_, ?_⟩
  · intro s
    unfold decodeColor
    cases hhex : isHexColorString s with
    | false => simp [hhex]
    | true =>
      cases hp : colorFromHexStyle (if s.length = 4 then expandShortHex s else s) with
      | none =>
        have := hex_parse_isSome s hhex
        rw [hp] at this
        exact absurd this (by simp)
      | some c => simp [hhex, hp]
  · intro amap i p cs
    rfl

/-! ### C5: color theme composer -/

/-- Filtering the child-theme pairs to color kinds equals mapping the theme
computation over the filtered children: the two sides of commuting
`children.filter(...).map(...)`. -/
theorem colorChildPairs_filter (amap : List (Nat × String)) :
    (cs : TreeList) →
    (colorChildPairs amap cs).filter (fun pr => isColorKind pr.1.kind) =
      ((TreeList.toList cs).filter (fun c => isColorKind c.kind)).map
        (fun c => (c, colorThemeForNodeGo amap c))
  | .nil => rfl
  | .cons c rest => by
    have ih := colorChildPairs_filter amap rest
    simp only [colorChildPairs, TreeList.toList, List.filter_cons, List.map_cons]
    cases h : isColorKind c.kind with
    | true => simp only [h, if_true, List.map_cons, ih]
    | false => simp only [h, if_false, Bool.false_eq_true, ih]

/-- Claim C5: for a representation node, `colorThemeForNode` returns the
uniform default theme when there are no color-bearing children; the single
whole-representation child theme directly when there is exactly one
color-bearing child whose effect covers the representation; and otherwise a
layered theme with one layer per color-bearing child in document order, each
layer pairing the child theme with the selection resolved from the child
selector. -/
theorem claim5_thm (amap : List (Nat × String)) (n : ITree)
    (hrep : n.kind = "representation") :
    (colorChildren n = [] →
      colorThemeForNode amap (some n) = ColorTheme.uniform (decodeColor (some DefaultColor))) ∧
    (∀ c, colorChildren n = [c] → appliesColorToWholeRepr c = true →
      colorThemeForNode amap (some n) = colorThemeForNode amap (some c)) ∧
    ((2 ≤ (colorChildren n).length ∨
      (∃ c, colorChildren n = [c] ∧ appliesColorToWholeRepr c = false)) →
      colorThemeForNode amap (some n) =
        ColorTheme.layered ((colorChildren n).map (fun c =>
          (colorThemeForNode amap (some c),
           componentPropsFromSelector
             (if c.kind == "color" then c.params.selector else none))))) := by
  cases n with
  | node i k p cs =>
    have hk : k = "representation" := hrep
    subst hk
    have hgo : colorThemeForNode amap (some (ITree.node i "representation" p cs)) =
        match ((TreeList.toList cs).filter (fun c => isColorKind c.kind)).map
            (fun c => (c, colorThemeForNodeGo amap c)) with
        | [] => ColorTheme.uniform (decodeColor (some DefaultColor))
        | [pr] =>
          if appliesColorToWholeRepr pr.1 then pr.2
          else ColorTheme.layered [layerOfChildPair pr]
        | pr1 :: pr2 :: rest =>
          ColorTheme.layered ((pr1 :: pr2 :: rest).map layerOfChildPair) := by
      show colorThemeForNodeGo amap (ITree.node i "representation" p cs) = _
      rw [colorThemeForNodeGo]
      rw [if_pos rfl]
      rw [colorChildPairs_filter]
    have hcc : colorChildren (ITree.node i "representation" p cs) =
        (TreeList.toList cs).filter (fun c => isColorKind c.kind) := rfl
    refine ⟨?_, ?_, ?_⟩
    · intro h0
      rw [hgo]
      rw [hcc] at h0
      rw [h0]
      rfl
    · intro c hc happ
      rw [hgo]
      rw [hcc] at hc
      rw [hc]
      simp only [List.map_cons, List.map_nil]
      rw [if_pos happ]
      rfl
    · intro hcase
      rw [hcc] at hcase ⊢
      rw [hgo]
      rcases hcase with h2 | ⟨c, hc, happ⟩
      · cases hl : (TreeList.toList cs).filter (fun c => isColorKind c.kind) with
        | nil => rw [hl] at h2; simp at h2
        | cons c1 tail =>
          cases tail with
          | nil => rw [hl] at h2; simp at h2
          | cons c2 rest =>
            simp only [List.map_cons]
            congr 1
            simp only [List.map_map]
            rfl
      · rw [hc]
        simp only [List.map_cons, List.map_nil]
        rw [if_neg (by simp [happ])]
        rfl

/-- Witness for C5: a representation node without children gets the uniform
default theme. -/
theorem claim5_w :
    colorThemeForNode [] (some c5ReprNode) =
      ColorTheme.uniform (decodeColor (some DefaultColor)) :=
  (claim5_thm [] c5ReprNode rfl).1 rfl

/-! ### C2: annotation identity -/

theorem lookup_mem {κ β : Type} [BEq κ] [LawfulBEq κ] (l : List (κ × β)) (k : κ) (v : β)
    (h : List.lookup k l = some v) : (k, v) ∈ l := by
  induction l with
  | nil => simp [List.lookup] at h
  | cons p rest ih =>
    rw [List.lookup] at h
    cases hb : k == p.1 with
    | true =>
      rw [hb] at h
      injection h with hv
      rw [eq_of_beq hb, ← hv]
      simp
    | false =>
      rw [hb] at h
      exact List.mem_cons_of_mem _ (ih h)

theorem lookup_isSome_iff_mem_keys {β : Type} (l : List (String × β)) (k : String) :
    (List.lookup k l).isSome = true ↔ k ∈ l.map Prod.fst := by
  induction l with
  | nil => simp
  | cons p rest ih =>
    simp only [List.lookup, List.map_cons, List.mem_cons]
    cases hb : k == p.1 with
    | true => simp [eq_of_beq hb]
    | false =>
      have : k ≠ p.1 := fun he => by simp [he] at hb
      simp [this, ih]

/-- The registry invariant is preserved by a node visit. -/
theorem regInv_collectVisit (st : CollectState) (t : ITree) (h : RegInv st.specs) :
    RegInv (collectVisit st t).specs := by
  unfold collectVisit
  cases hs : annoSpecOfNode t with
  | none => exact h
  | some sj =>
    by_cases hk : (st.specs.lookup (canonicalJsonString sj)).isSome = true
    · show RegInv (if _ then _ else _)
      rw [if_pos hk]
      exact h
    · show RegInv (if _ then _ else _)
      rw [if_neg hk]
      intro p hp
      rcases List.mem_append.mp hp with h1 | h2
      · exact h p h1
      · simp only [List.mem_singleton] at h2
        rw [h2]
        exact ⟨rfl, rfl⟩

mutual
theorem regInv_collectNodeGo : ∀ (t : ITree) (st : CollectState),
    RegInv st.specs → RegInv (collectNodeGo t st).specs
  | .node i k p cs, st => fun h =>
    regInv_collectForestGo cs (collectVisit st (.node i k p cs))
      (regInv_collectVisit st (.node i k p cs) h)
theorem regInv_collectForestGo : ∀ (ts : TreeList) (st : CollectState),
    RegInv st.specs → RegInv (collectForestGo ts st).specs
  | .nil, _ => fun h => h
  | .cons t ts, st => fun h =>
    regInv_collectForestGo ts (collectNodeGo t st) (regInv_collectNodeGo t st h)
end

/-- A node visit changes the annotation map at most at the visited id. -/
theorem collectVisit_amap_ne (st : CollectState) (t : ITree) (k : Nat) (h : k ≠ t.id) :
    ((collectVisit st t).annotationMap).lookup k = st.annotationMap.lookup k := by
  unfold collectVisit
  cases hs : annoSpecOfNode t with
  | none => rfl
  | some sj =>
    simp only []
    exact lookup_mset_ne _ _ _ _ h

mutual
theorem collect_amap_frame_node : ∀ (t : ITree) (st : CollectState) (k : Nat),
    k ∉ (subtreeNodes t).map ITree.id →
    ((collectNodeGo t st).annotationMap).lookup k = st.annotationMap.lookup k
  | .node i kd p cs, st, k => fun hk => by
    have hk1 : k ≠ (ITree.node i kd p cs).id := by
      intro he
      exact hk (by rw [he]; exact List.mem_map_of_mem _ (List.mem_cons_self _ _))
    have hk2 : k ∉ (forestNodes cs).map ITree.id := by
      intro hmem
      apply hk
      simp only [subtreeNodes, List.map_cons]
      exact List.mem_cons_of_mem _ hmem
    show ((collectForestGo cs (collectVisit st (.node i kd p cs))).annotationMap).lookup k = _
    rw [collect_amap_frame_forest cs _ k hk2]
    exact collectVisit_amap_ne st _ k hk1
theorem collect_amap_frame_forest : ∀ (ts : TreeList) (st : CollectState) (k : Nat),
    k ∉ (forestNodes ts).map ITree.id →
    ((collectForestGo ts st).annotationMap).lookup k = st.annotationMap.lookup k
  | .nil, _, _ => fun _ => rfl
  | .cons t ts, st, k => fun hk => by
    have hk1 : k ∉ (subtreeNodes t).map ITree.id := by
      intro hmem
      apply hk
      simp only [forestNodes, List.map_append, List.mem_append]
      exact Or.inl hmem
    have hk2 : k ∉ (forestNodes ts).map ITree.id := by
      intro hmem
      apply hk
      simp only [forestNodes, List.map_append, List.mem_append]
      exact Or.inr hmem
    show ((collectForestGo ts (collectNodeGo t st)).annotationMap).lookup k = _
    rw [collect_amap_frame_forest ts _ k hk2]
    exact collect_amap_frame_node t st k hk1
end

/-- On an annotation-bearing node the visit maps the node id to the hash of
the canonical spec (whether the registry entry is fresh or already won). -/
theorem collectVisit_amap_eq (st : CollectState) (t : ITree) (s : Json)
    (hs : annoSpecOfNode t = some s) (hreg : RegInv st.specs) :
    (collectVisit st t).annotationMap =
      mset st.annotationMap t.id (stringHash (canonicalJsonString s)) := by
  unfold collectVisit
  rw [hs]
  dsimp only
  by_cases hk : (st.specs.lookup (canonicalJsonString s)).isSome = true
  · rw [if_pos hk]
    cases hl : st.specs.lookup (canonicalJsonString s) with
    | none => exact absurd hk (by simp [hl])
    | some sp =>
      have := hreg _ (lookup_mem _ _ _ hl)
      dsimp only
      rw [this.2]
  · rw [if_neg hk]
    rw [List.lookup_append]
    cases hl : st.specs.lookup (canonicalJsonString s) with
    | some sp => exact absurd hk (by simp [hl])
    | none =>
      simp only [Option.none_or]
      rw [List.lookup_cons]
      simp

mutual
theorem collect_lookup_node : ∀ (t : ITree) (st : CollectState) (n : ITree) (s : Json),
    RegInv st.specs → ((subtreeNodes t).map ITree.id).Nodup → n ∈ subtreeNodes t →
    annoSpecOfNode n = some s →
    ((collectNodeGo t st).annotationMap).lookup n.id =
      some (stringHash (canonicalJsonString s))
  | .node i kd p cs, st, n, s => fun hreg hnd hmem hspec => by
    rcases List.mem_cons.mp hmem with heq | hmem'
    · rw [heq] at hspec ⊢
      show ((collectForestGo cs (collectVisit st (.node i kd p cs))).annotationMap).lookup
        (ITree.node i kd p cs).id = _
      have hfr : (ITree.node i kd p cs).id ∉ (forestNodes cs).map ITree.id := by
        have := hnd
        simp only [subtreeNodes, List.map_cons, List.nodup_cons] at this
        exact this.1
      rw [collect_amap_frame_forest cs _ _ hfr]
      rw [collectVisit_amap_eq st _ s hspec hreg]
      exact lookup_mset_self _ _ _
    · show ((collectForestGo cs (collectVisit st (.node i kd p cs))).annotationMap).lookup n.id = _
      have hnd' : ((forestNodes cs).map ITree.id).Nodup := by
        have := hnd
        simp only [subtreeNodes, List.map_cons, List.nodup_cons] at this
        exact this.2
      exact collect_lookup_forest cs _ n s
        (regInv_collectVisit st _ hreg) hnd' hmem' hspec
theorem collect_lookup_forest : ∀ (ts : TreeList) (st : CollectState) (n : ITree) (s : Json),
    RegInv st.specs → ((forestNodes ts).map ITree.id).Nodup → n ∈ forestNodes ts →
    annoSpecOfNode n = some s →
    ((collectForestGo ts st).annotationMap).lookup n.id =
      some (stringHash (canonicalJsonString s))
  | .nil, _, n, s => fun _ _ hmem _ => absurd hmem (by simp [forestNodes])
  | .cons t ts, st, n, s => fun hreg hnd hmem hspec => by
    have hnd1 : ((subtreeNodes t).map ITree.id).Nodup := by
      simp only [forestNodes, List.map_append] at hnd
      exact hnd.of_append_left
    have hnd2 : ((forestNodes ts).map ITree.id).Nodup := by
      simp only [forestNodes, List.map_append] at hnd
      exact hnd.of_append_right
    have hdisj : ((subtreeNodes t).map ITree.id).Disjoint ((forestNodes ts).map ITree.id) := by
      simp only [forestNodes, List.map_append] at hnd
      exact List.disjoint_of_nodup_append hnd
    rcases List.mem_append.mp (by simpa [forestNodes] using hmem) with h1 | h2
    · show ((collectForestGo ts (collectNodeGo t st)).annotationMap).lookup n.id = _
      have hfr : n.id ∉ (forestNodes ts).map ITree.id :=
        fun hc => hdisj (List.mem_map_of_mem _ h1) hc
      rw [collect_amap_frame_forest ts _ n.id hfr]
      exact collect_lookup_node t st n s hreg hnd1 h1 hspec
    · show ((collectForestGo ts (collectNodeGo t st)).annotationMap).lookup n.id = _
      exact collect_lookup_forest ts _ n s
        (regInv_collectNodeGo t st hreg) hnd2 h2 hspec
end

/-- Claim C2 (amended): any two annotation-bearing nodes whose canonical
specs coincide (in particular, nodes with field-for-field identical
source/schema/block/category parameters, since the spec is a function of
those fields and canonicalization ignores key order and undefined fields)
receive the same id in `context.annotationMap`, namely the stable string
hash of the canonicalized spec.  Distinct canonical specs stay distinct
registry entries but their 32-bit ids can collide (see `claim2_cex`). -/
theorem claim2_thm (t : ITree) (h : NoDupIds t) (n1 n2 : ITree)
    (h1 : n1 ∈ allNodes t) (h2 : n2 ∈ allNodes t) (s1 s2 : Json)
    (hs1 : annoSpecOfNode n1 = some s1) (hs2 : annoSpecOfNode n2 = some s2)
    (hc : canonicalJsonString s1 = canonicalJsonString s2) :
    (annotationMapOf t).lookup n1.id = some (stringHash (canonicalJsonString s1)) ∧
    (annotationMapOf t).lookup n2.id = some (stringHash (canonicalJsonString s2)) ∧
    (annotationMapOf t).lookup n1.id = (annotationMapOf t).lookup n2.id := by
  have e1 : (annotationMapOf t).lookup n1.id = some (stringHash (canonicalJsonString s1)) :=
    collect_lookup_node t ⟨[], []⟩ n1 s1 (fun p hp => absurd hp (by simp)) h h1 hs1
  have e2 : (annotationMapOf t).lookup n2.id = some (stringHash (canonicalJsonString s2)) :=
    collect_lookup_node t ⟨[], []⟩ n2 s2 (fun p hp => absurd hp (by simp)) h h2 hs2
  refine ⟨e1, e2, ?_⟩
  rw [e1, e2, hc]

set_option maxRecDepth 100000 in
/-- Claim C2 counterexample: the two annotation nodes of `c2Tree` produce
different canonical specs (the uris differ: `Aa` versus `Ab`) yet receive
the same annotation id `ddc74811`, because the hash of the two canonical
strings collides (the differing code unit is skipped by the hash loop). -/
theorem claim2_cex :
    (annoSpecOfNode c2NodeA).isSome = true ∧
    (annoSpecOfNode c2NodeB).isSome = true ∧
    canonicalJsonString ((annoSpecOfNode c2NodeA).getD .jnull) ≠
      canonicalJsonString ((annoSpecOfNode c2NodeB).getD .jnull) ∧
    (annotationMapOf c2Tree).lookup 1 = some "ddc74811" ∧
    (annotationMapOf c2Tree).lookup 2 = some "ddc74811" := by
  refine ⟨rfl, rfl, by decide, rfl, rfl⟩

set_option maxRecDepth 100000 in
/-- Witness for C2: two nodes with identical annotation parameters receive
the same id, the hash of the shared canonical spec. -/
theorem claim2_w :
    (annotationMapOf c2wTree).lookup 1 = some (stringHash (canonicalJsonString c2wSpec)) ∧
    (annotationMapOf c2wTree).lookup 2 = some (stringHash (canonicalJsonString c2wSpec)) ∧
    (annotationMapOf c2wTree).lookup 1 = (annotationMapOf c2wTree).lookup 2 :=
  claim2_thm c2wTree (by decide) c2wNodeA c2wNodeB
    (List.Mem.tail _ (List.Mem.head _))
    (List.Mem.tail _ (List.Mem.tail _ (List.Mem.head _)))
    c2wSpec c2wSpec rfl rfl rfl

/-! ### C8: first-encounter order of the spec list -/

theorem collectVisit_specs (st : CollectState) (t : ITree) :
    (collectVisit st t).specs =
      match annoSpecOfNode t with
      | some sj => regStep st.specs sj
      | none => st.specs := by
  unfold collectVisit regStep
  cases annoSpecOfNode t with
  | none => rfl
  | some sj => rfl

mutual
theorem collect_specs_node : ∀ (t : ITree) (st : CollectState),
    (collectNodeGo t st).specs = regFold st.specs ((subtreeNodes t).filterMap annoSpecOfNode)
  | .node i k p cs, st => by
    show (collectForestGo cs (collectVisit st (.node i k p cs))).specs = _
    rw [collect_specs_forest cs _]
    rw [collectVisit_specs]
    cases hs : annoSpecOfNode (.node i k p cs) with
    | none => simp only [subtreeNodes, List.filterMap_cons, hs]
    | some sj => simp only [subtreeNodes, List.filterMap_cons, hs, regFold, List.foldl_cons]
theorem collect_specs_forest : ∀ (ts : TreeList) (st : CollectState),
    (collectForestGo ts st).specs = regFold st.specs ((forestNodes ts).filterMap annoSpecOfNode)
  | .nil, st => rfl
  | .cons t ts, st => by
    show (collectForestGo ts (collectNodeGo t st)).specs = _
    rw [collect_specs_forest ts _, collect_specs_node t st]
    simp only [forestNodes, List.filterMap_append, regFold, List.foldl_append]
end

theorem dedupFirstFrom_congr : ∀ (l : List String) (s1 s2 : List String),
    (∀ a, a ∈ s1 ↔ a ∈ s2) → dedupFirstFrom s1 l = dedupFirstFrom s2 l
  | [], _, _, _ => rfl
  | k :: ks, s1, s2, h => by
    unfold dedupFirstFrom
    by_cases hk : k ∈ s1
    · rw [if_pos hk, if_pos ((h k).mp hk)]
      exact dedupFirstFrom_congr ks s1 s2 h
    · rw [if_neg hk, if_neg (fun hc => hk ((h k).mpr hc))]
      congr 1
      refine dedupFirstFrom_congr ks (k :: s1) (k :: s2) ?_
      intro a
      simp only [List.mem_cons]
      exact or_congr Iff.rfl (h a)

theorem regFold_keys : ∀ (l : List Json) (specs0 : List (String × AnnotationSpec)),
    (regFold specs0 l).map Prod.fst =
      specs0.map Prod.fst ++ dedupFirstFrom (specs0.map Prod.fst) (l.map canonicalJsonString)
  | [], specs0 => by simp [regFold, dedupFirstFrom]
  | sj :: rest, specs0 => by
    show (regFold (regStep specs0 sj) rest).map Prod.fst = _
    rw [regFold_keys rest (regStep specs0 sj)]
    simp only [List.map_cons]
    rw [show dedupFirstFrom (specs0.map Prod.fst)
          (canonicalJsonString sj :: rest.map canonicalJsonString) =
        if canonicalJsonString sj ∈ specs0.map Prod.fst then
          dedupFirstFrom (specs0.map Prod.fst) (rest.map canonicalJsonString)
        else canonicalJsonString sj ::
          dedupFirstFrom (canonicalJsonString sj :: specs0.map Prod.fst)
            (rest.map canonicalJsonString) from rfl]
    by_cases hmem : canonicalJsonString sj ∈ specs0.map Prod.fst
    · rw [if_pos hmem]
      have hk : (specs0.lookup (canonicalJsonString sj)).isSome = true :=
        (lookup_isSome_iff_mem_keys specs0 _).mpr hmem
      have hstep : regStep specs0 sj = specs0 := by
        unfold regStep
        dsimp only
        rw [if_pos hk]
      rw [hstep]
    · rw [if_neg hmem]
      have hk : ¬ (specs0.lookup (canonicalJsonString sj)).isSome = true :=
        fun hc => hmem ((lookup_isSome_iff_mem_keys specs0 _).mp hc)
      have hstep : regStep specs0 sj =
          specs0 ++ [(canonicalJsonString sj,
            ⟨sj, stringHash (canonicalJsonString sj)⟩)] := by
        unfold regStep
        dsimp only
        rw [if_neg hk]
      rw [hstep]
      simp only [List.map_append, List.map_cons, List.map_nil]
      rw [dedupFirstFrom_congr (rest.map canonicalJsonString)
        (specs0.map Prod.fst ++ [canonicalJsonString sj])
        (canonicalJsonString sj :: specs0.map Prod.fst)
        (by intro a; simp [or_comm])]
      simp

theorem dedupFirstFrom_mem : ∀ (l seen : List String) (a : String),
    a ∈ dedupFirstFrom seen l → a ∉ seen ∧ a ∈ l
  | [], _, a => by simp [dedupFirstFrom]
  | k :: ks, seen, a => fun h => by
    unfold dedupFirstFrom at h
    by_cases hk : k ∈ seen
    · rw [if_pos hk] at h
      have := dedupFirstFrom_mem ks seen a h
      exact ⟨this.1, List.mem_cons_of_mem _ this.2⟩
    · rw [if_neg hk] at h
      rcases List.mem_cons.mp h with he | h2
      · rw [he]
        exact ⟨hk, List.mem_cons_self _ _⟩
      · have := dedupFirstFrom_mem ks (k :: seen) a h2
        exact ⟨fun hc => this.1 (List.mem_cons_of_mem _ hc),
          List.mem_cons_of_mem _ this.2⟩

theorem dedupFirstFrom_pairwise : ∀ (l seen : List String),
    List.Pairwise (fun a b => l.indexOf a < l.indexOf b) (dedupFirstFrom seen l)
  | [], _ => by simp [dedupFirstFrom]
  | k :: ks, seen => by
    unfold dedupFirstFrom
    by_cases hk : k ∈ seen
    · rw [if_pos hk]
      refine (dedupFirstFrom_pairwise ks seen).imp_of_mem ?_
      intro a b ha hb hlt
      have hak : a ≠ k := fun he => (dedupFirstFrom_mem ks seen a ha).1 (he ▸ hk)
      have hbk : b ≠ k := fun he => (dedupFirstFrom_mem ks seen b hb).1 (he ▸ hk)
      rw [List.indexOf_cons_ne _ (fun he => hak he.symm),
        List.indexOf_cons_ne _ (fun he => hbk he.symm)]
      omega
    · rw [if_neg hk]
      constructor
      · intro b hb
        have hbk : b ≠ k := fun he =>
          (dedupFirstFrom_mem ks (k :: seen) b hb).1 (he ▸ List.mem_cons_self k seen)
        rw [List.indexOf_cons_self, List.indexOf_cons_ne _ (fun he => hbk he.symm)]
        omega
      · refine (dedupFirstFrom_pairwise ks (k :: seen)).imp_of_mem ?_
        intro a b ha hb hlt
        have hak : a ≠ k := fun he =>
          (dedupFirstFrom_mem ks (k :: seen) a ha).1 (he ▸ List.mem_cons_self k seen)
        have hbk : b ≠ k := fun he =>
          (dedupFirstFrom_mem ks (k :: seen) b hb).1 (he ▸ List.mem_cons_self k seen)
        rw [List.indexOf_cons_ne _ (fun he => hak he.symm),
          List.indexOf_cons_ne _ (fun he => hbk he.symm)]
        omega

/-- The canonical keys of the final registry are the first-encounter
deduplication of the pre-order spec scan. -/
theorem collect_specs_keys (t : ITree) :
    ((collectNodeGo t ⟨[], []⟩).specs).map Prod.fst = dedupFirstFrom [] (canonKeys t) := by
  rw [collect_specs_node t ⟨[], []⟩]
  rw [regFold_keys]
  simp only [List.map_nil, List.nil_append]
  rfl

/-- Claim C8: the distinct annotation specs returned by
`collectAnnotationReferences` are ordered by first DFS encounter: entry `i`
precedes entry `j` exactly when the first node producing the canonical spec
of entry `i` is visited before the first node producing the canonical spec
of entry `j` (first-encounter position measured by `List.indexOf` of the
canonical spec string in the pre-order scan `canonKeys`). -/
theorem claim8_thm (t : ITree) (i j : Fin (collectAnnotationReferences t).length) :
    i < j ↔
      (canonKeys t).indexOf
          (canonicalJsonString ((collectAnnotationReferences t).get i).spec) <
        (canonKeys t).indexOf
          (canonicalJsonString ((collectAnnotationReferences t).get j).spec) := by
  have hreg : RegInv (collectNodeGo t ⟨[], []⟩).specs :=
    regInv_collectNodeGo t ⟨[], []⟩ (fun p hp => absurd hp (by simp))
  have hpw_keys : List.Pairwise
      (fun a b => (canonKeys t).indexOf a < (canonKeys t).indexOf b)
      (((collectNodeGo t ⟨[], []⟩).specs).map Prod.fst) := by
    rw [collect_specs_keys t]
    exact dedupFirstFrom_pairwise (canonKeys t) []
  have hpw_specs := List.pairwise_map.mp hpw_keys
  have hpw2 : List.Pairwise
      (fun p q : String × AnnotationSpec =>
        (canonKeys t).indexOf (canonicalJsonString p.2.spec) <
          (canonKeys t).indexOf (canonicalJsonString q.2.spec))
      (collectNodeGo t ⟨[], []⟩).specs := by
    refine hpw_specs.imp_of_mem ?_
    intro a b ha hb hr
    rw [(hreg _ ha).1, (hreg _ hb).1]
    exact hr
  have hpw3 : List.Pairwise
      (fun a b : AnnotationSpec =>
        (canonKeys t).indexOf (canonicalJsonString a.spec) <
          (canonKeys t).indexOf (canonicalJsonString b.spec))
      (collectAnnotationReferences t) := List.pairwise_map.mpr hpw2
  have hget := List.pairwise_iff_get.mp hpw3
  constructor
  · intro hij
    exact hget i j hij
  · intro hlt
    rcases lt_trichotomy i j with h | h | h
    · exact h
    · rw [h] at hlt
      exact absurd hlt (lt_irrefl _)
    · exact absurd hlt (Nat.lt_asymm (hget j i h))

/-! ### C1: the loading compiler skips orphaned children -/

theorem mem_subtreeNodes_self : ∀ (t : ITree), t ∈ subtreeNodes t
  | .node _ _ _ _ => List.mem_cons_self _ _

theorem mem_forestNodes_of_mem_toList : ∀ (cs : TreeList) (c : ITree),
    c ∈ TreeList.toList cs → c ∈ forestNodes cs
  | .nil, c => fun h => absurd h (by simp [TreeList.toList])
  | .cons t ts, c => fun h => by
    rcases List.mem_cons.mp h with he | h2
    · rw [he]
      exact List.mem_append.mpr (Or.inl (mem_subtreeNodes_self t))
    · exact List.mem_append.mpr (Or.inr (mem_forestNodes_of_mem_toList ts c h2))

theorem mem_subtreeNodes_of_child : ∀ (n c : ITree),
    c ∈ TreeList.toList n.children → c ∈ subtreeNodes n
  | .node _ _ _ cs, c => fun h =>
    List.mem_cons_of_mem _ (mem_forestNodes_of_mem_toList cs c h)

mutual
theorem subtree_mem_trans : ∀ (t n : ITree), n ∈ subtreeNodes t →
    ∀ x ∈ subtreeNodes n, x ∈ subtreeNodes t
  | .node i k p cs, n => fun hn x hx => by
    rcases List.mem_cons.mp hn with he | h2
    · rw [← he]
      exact hx
    · exact List.mem_cons_of_mem _ (forest_mem_trans cs n h2 x hx)
theorem forest_mem_trans : ∀ (ts : TreeList) (n : ITree), n ∈ forestNodes ts →
    ∀ x ∈ subtreeNodes n, x ∈ forestNodes ts
  | .nil, n => fun hn => absurd hn (by simp [forestNodes])
  | .cons t ts, n => fun hn x hx => by
    rcases List.mem_append.mp hn with h1 | h2
    · exact List.mem_append.mpr (Or.inl (subtree_mem_trans t n h1 x hx))
    · exact List.mem_append.mpr (Or.inr (forest_mem_trans ts n h2 x hx))
end

theorem loadVisit_lookup_ne {R : Type} (acts : LoadingActions R) (msRoot : R)
    (t : ITree) (pid : Option Nat) (m : List (Nat × Option R)) (k : Nat)
    (h : k ≠ t.id) :
    (loadVisit acts msRoot t pid m).lookup k = m.lookup k := by
  unfold loadVisit
  cases acts t.kind with
  | none => rfl
  | some action =>
    cases hp : (match pid with
      | none => some msRoot
      | some pd => (m.lookup pd).join : Option R) with
    | none => rfl
    | some mp => exact lookup_mset_ne _ _ _ _ h

mutual
theorem load_frame_node {R : Type} (acts : LoadingActions R) (msRoot : R) :
    ∀ (t : ITree) (pid : Option Nat) (m : List (Nat × Option R)) (k : Nat),
    k ∉ (subtreeNodes t).map ITree.id →
    (loadNodeGo acts msRoot t pid m).lookup k = m.lookup k
  | .node i kd p cs, pid, m, k => fun hk => by
    have hk1 : k ≠ (ITree.node i kd p cs).id := fun he =>
      hk (by rw [he]; exact List.mem_map_of_mem _ (List.mem_cons_self _ _))
    have hk2 : k ∉ (forestNodes cs).map ITree.id := fun hm =>
      hk (by simp only [subtreeNodes, List.map_cons]; exact List.mem_cons_of_mem _ hm)
    show (loadForestGo acts msRoot cs (some i) (loadVisit acts msRoot (.node i kd p cs) pid m)).lookup k = _
    rw [load_frame_forest acts msRoot cs _ _ k hk2]
    exact loadVisit_lookup_ne acts msRoot _ pid m k hk1
theorem load_frame_forest {R : Type} (acts : LoadingActions R) (msRoot : R) :
    ∀ (ts : TreeList) (pid : Option Nat) (m : List (Nat × Option R)) (k : Nat),
    k ∉ (forestNodes ts).map ITree.id →
    (loadForestGo acts msRoot ts pid m).lookup k = m.lookup k
  | .nil, _, _, _ => fun _ => rfl
  | .cons t ts, pid, m, k => fun hk => by
    have hk1 : k ∉ (subtreeNodes t).map ITree.id := fun hm =>
      hk (by simp only [forestNodes, List.map_append, List.mem_append]; exact Or.inl hm)
    have hk2 : k ∉ (forestNodes ts).map ITree.id := fun hm =>
      hk (by simp only [forestNodes, List.map_append, List.mem_append]; exact Or.inr hm)
    show (loadForestGo acts msRoot ts pid (loadNodeGo acts msRoot t pid m)).lookup k = _
    rw [load_frame_forest acts msRoot ts _ _ k hk2]
    exact load_frame_node acts msRoot t pid m k hk1
end

mutual
/-- A subtree hanging below a parent whose entry is absent leaves the map
untouched: the visit of each node either has no action or is skipped
because the effective parent result is `undefined`. -/
theorem load_dead_node {R : Type} (acts : LoadingActions R) (msRoot : R) :
    ∀ (t : ITree) (dead : Nat) (m : List (Nat × Option R)),
    m.lookup dead = none →
    (∀ n' ∈ subtreeNodes t, m.lookup n'.id = none) →
    ((subtreeNodes t).map ITree.id).Nodup →
    dead ∉ (subtreeNodes t).map ITree.id →
    loadNodeGo acts msRoot t (some dead) m = m
  | .node i kd p cs, dead, m => fun hdead hfr hnd hni => by
    have hvisit : loadVisit acts msRoot (.node i kd p cs) (some dead) m = m := by
      unfold loadVisit
      cases acts (ITree.node i kd p cs).kind with
      | none => rfl
      | some action =>
        dsimp only
        rw [hdead]
        rfl
    show loadForestGo acts msRoot cs (some i) (loadVisit acts msRoot (.node i kd p cs) (some dead) m) = m
    rw [hvisit]
    have hnd' : ((forestNodes cs).map ITree.id).Nodup := by
      simp only [subtreeNodes, List.map_cons, List.nodup_cons] at hnd
      exact hnd.2
    have hni' : i ∉ (forestNodes cs).map ITree.id := by
      simp only [subtreeNodes, List.map_cons, List.nodup_cons] at hnd
      exact hnd.1
    exact load_dead_forest acts msRoot cs i m
      (hfr _ (mem_subtreeNodes_self _))
      (fun n' hn' => hfr n' (List.mem_cons_of_mem _ hn')) hnd' hni'
theorem load_dead_forest {R : Type} (acts : LoadingActions R) (msRoot : R) :
    ∀ (ts : TreeList) (dead : Nat) (m : List (Nat × Option R)),
    m.lookup dead = none →
    (∀ n' ∈ forestNodes ts, m.lookup n'.id = none) →
    ((forestNodes ts).map ITree.id).Nodup →
    dead ∉ (forestNodes ts).map ITree.id →
    loadForestGo acts msRoot ts (some dead) m = m
  | .nil, _, _ => fun _ _ _ _ => rfl
  | .cons t ts, dead, m => fun hdead hfr hnd hni => by
    have hnd1 : ((subtreeNodes t).map ITree.id).Nodup := by
      simp only [forestNodes, List.map_append] at hnd
      exact hnd.of_append_left
    have hnd2 : ((forestNodes ts).map ITree.id).Nodup := by
      simp only [forestNodes, List.map_append] at hnd
      exact hnd.of_append_right
    have hni1 : dead ∉ (subtreeNodes t).map ITree.id := fun hm =>
      hni (by simp only [forestNodes, List.map_append, List.mem_append]; exact Or.inl hm)
    have hni2 : dead ∉ (forestNodes ts).map ITree.id := fun hm =>
      hni (by simp only [forestNodes, List.map_append, List.mem_append]; exact Or.inr hm)
    have hfr1 : ∀ n' ∈ subtreeNodes t, m.lookup n'.id = none := fun n' hn' =>
      hfr n' (List.mem_append.mpr (Or.inl hn'))
    have hfr2 : ∀ n' ∈ forestNodes ts, m.lookup n'.id = none := fun n' hn' =>
      hfr n' (List.mem_append.mpr (Or.inr hn'))
    show loadForestGo acts msRoot ts (some dead) (loadNodeGo acts msRoot t (some dead) m) = m
    rw [load_dead_node acts msRoot t dead m hdead hfr1 hnd1 hni1]
    exact load_dead_forest acts msRoot ts dead m hdead hfr2 hnd2 hni2
end

mutual
/-- In a forest whose nodes are not yet in the map and have distinct ids, a
node with no registered action ends with no entry, and so do all of its
children. -/
theorem load_skip_node {R : Type} (acts : LoadingActions R) (msRoot : R) :
    ∀ (t : ITree) (pid : Option Nat) (m : List (Nat × Option R)) (n : ITree),
    (∀ n' ∈ subtreeNodes t, m.lookup n'.id = none) →
    ((subtreeNodes t).map ITree.id).Nodup →
    n ∈ subtreeNodes t → acts n.kind = none →
    (loadNodeGo acts msRoot t pid m).lookup n.id = none ∧
      ∀ c ∈ TreeList.toList n.children, (loadNodeGo acts msRoot t pid m).lookup c.id = none
  | .node i kd p cs, pid, m, n => fun hfr hnd hmem hact => by
    rcases List.mem_cons.mp hmem with heq | hmem'
    · -- the dead node is the root of this subtree
      have hvisit : loadVisit acts msRoot (.node i kd p cs) pid m = m := by
        unfold loadVisit
        rw [show (ITree.node i kd p cs).kind = n.kind by rw [heq]]
        rw [hact]
      have hnd' : ((forestNodes cs).map ITree.id).Nodup := by
        simp only [subtreeNodes, List.map_cons, List.nodup_cons] at hnd
        exact hnd.2
      have hni' : i ∉ (forestNodes cs).map ITree.id := by
        simp only [subtreeNodes, List.map_cons, List.nodup_cons] at hnd
        exact hnd.1
      have hresult : loadNodeGo acts msRoot (.node i kd p cs) pid m = m := by
        show loadForestGo acts msRoot cs (some i) (loadVisit acts msRoot (.node i kd p cs) pid m) = m
        rw [hvisit]
        exact load_dead_forest acts msRoot cs i m
          (hfr _ (mem_subtreeNodes_self _))
          (fun n' hn' => hfr n' (List.mem_cons_of_mem _ hn')) hnd' hni'
      rw [hresult]
      constructor
      · exact hfr n hmem
      · intro c hc
        exact hfr c (subtree_mem_trans _ n hmem c (mem_subtreeNodes_of_child n c hc))
    · -- the dead node lies deeper in the subtree
      have hfr' : ∀ n' ∈ forestNodes cs,
          (loadVisit acts msRoot (.node i kd p cs) pid m).lookup n'.id = none := by
        intro n' hn'
        have hne : n'.id ≠ (ITree.node i kd p cs).id := by
          simp only [subtreeNodes, List.map_cons, List.nodup_cons] at hnd
          intro he
          exact hnd.1 (he ▸ List.mem_map_of_mem _ hn')
        rw [loadVisit_lookup_ne acts msRoot _ pid m _ hne]
        exact hfr n' (List.mem_cons_of_mem _ hn')
      have hnd' : ((forestNodes cs).map ITree.id).Nodup := by
        simp only [subtreeNodes, List.map_cons, List.nodup_cons] at hnd
        exact hnd.2
      exact load_skip_forest acts msRoot cs (some i) _ n hfr' hnd' hmem' hact
theorem load_skip_forest {R : Type} (acts : LoadingActions R) (msRoot : R) :
    ∀ (ts : TreeList) (pid : Option Nat) (m : List (Nat × Option R)) (n : ITree),
    (∀ n' ∈ forestNodes ts, m.lookup n'.id = none) →
    ((forestNodes ts).map ITree.id).Nodup →
    n ∈ forestNodes ts → acts n.kind = none →
    (loadForestGo acts msRoot ts pid m).lookup n.id = none ∧
      ∀ c ∈ TreeList.toList n.children, (loadForestGo acts msRoot ts pid m).lookup c.id = none
  | .nil, _, _, n => fun _ _ hmem _ => absurd hmem (by simp [forestNodes])
  | .cons t ts, pid, m, n => fun hfr hnd hmem hact => by
    have hnd1 : ((subtreeNodes t).map ITree.id).Nodup := by
      simp only [forestNodes, List.map_append] at hnd
      exact hnd.of_append_left
    have hnd2 : ((forestNodes ts).map ITree.id).Nodup := by
      simp only [forestNodes, List.map_append] at hnd
      exact hnd.of_append_right
    have hdisj : ((subtreeNodes t).map ITree.id).Disjoint ((forestNodes ts).map ITree.id) := by
      simp only [forestNodes, List.map_append] at hnd
      exact List.disjoint_of_nodup_append hnd
    rcases List.mem_append.mp (by simpa [forestNodes] using hmem) with h1 | h2
    · -- the dead node lies in the first subtree; frame through the siblings
      have hres := load_skip_node acts msRoot t pid m n
        (fun n' hn' => hfr n' (List.mem_append.mpr (Or.inl hn'))) hnd1 h1 hact
      have hfr_n : n.id ∉ (forestNodes ts).map ITree.id := fun hc =>
        hdisj (List.mem_map_of_mem _ h1) hc
      constructor
      · show (loadForestGo acts msRoot ts pid (loadNodeGo acts msRoot t pid m)).lookup n.id = none
        rw [load_frame_forest acts msRoot ts _ _ _ hfr_n]
        exact hres.1
      · intro c hc
        have hcsub : c ∈ subtreeNodes t :=
          subtree_mem_trans t n h1 c (mem_subtreeNodes_of_child n c hc)
        have hfr_c : c.id ∉ (forestNodes ts).map ITree.id := fun hcc =>
          hdisj (List.mem_map_of_mem _ hcsub) hcc
        show (loadForestGo acts msRoot ts pid (loadNodeGo acts msRoot t pid m)).lookup c.id = none
        rw [load_frame_forest acts msRoot ts _ _ _ hfr_c]
        exact hres.2 c hc
    · -- the dead node lies among the later siblings
      have hfr' : ∀ n' ∈ forestNodes ts,
          (loadNodeGo acts msRoot t pid m).lookup n'.id = none := by
        intro n' hn'
        have : n'.id ∉ (subtreeNodes t).map ITree.id := fun hc =>
          hdisj hc (List.mem_map_of_mem _ hn')
        rw [load_frame_node acts msRoot t pid m _ this]
        exact hfr n' (List.mem_append.mpr (Or.inr hn'))
      exact load_skip_forest acts msRoot ts pid _ n hfr' hnd2 h2 hact
end

/-- Claim C1 (amended): when `loadTree` visits a node whose kind has no
registered action, the node gets no entry in the node-to-result map; its
children do not inherit any ancestor result — each child with a registered
action looks up the skipped node itself, finds no result, and is skipped
with a diagnostic — so the children also end with no entries. -/
theorem claim1_thm {R : Type} (acts : LoadingActions R) (msRoot : R) (t : ITree)
    (hnd : NoDupIds t) (n : ITree) (hmem : n ∈ allNodes t)
    (hact : acts n.kind = none) :
    (loadTree acts msRoot t).lookup n.id = none ∧
      ∀ c ∈ TreeList.toList n.children, (loadTree acts msRoot t).lookup c.id = none :=
  load_skip_node acts msRoot t none [] n (fun _ _ => rfl) hnd hmem hact

/-- Witness for C1: in `c1Tree` the kind `x` has no action; the `x` node
(id 1) gets no entry and neither does its child (id 2), although the child
kind `y` has a registered action. -/
theorem claim1_w :
    (loadTree c1Actions 10 c1Tree).lookup (1 : Nat) = none ∧
      ∀ c ∈ TreeList.toList (ITree.node 1 "x" {} (.cons (.node 2 "y" {} .nil) .nil)).children,
        (loadTree c1Actions 10 c1Tree).lookup c.id = none :=
  claim1_thm c1Actions 10 c1Tree (by decide)
    (ITree.node 1 "x" {} (.cons (.node 2 "y" {} .nil) .nil))
    (List.Mem.tail _ (List.Mem.head _)) rfl

/-- Claim C1 counterexample: in `c1Tree` the node of kind `y` (id 2) has a
registered action and sits below the skipped `x` node, whose parent (the
root) has a result; the claim says the `y` node is still processed with the
root result as effective parent, but its entry is absent (only the root,
id 0, was loaded). -/
theorem claim1_cex :
    (c1Actions "y").isSome = true ∧
    (loadTree c1Actions 10 c1Tree).lookup (0 : Nat) = some (some 11) ∧
    (loadTree c1Actions 10 c1Tree).lookup (2 : Nat) = none := by
  refine ⟨rfl, rfl, rfl⟩

/-! ### C3: the bottom-up pass of the nearest-representation propagator -/

/-- Where an entry of `upVisit` can come from: it was already present, it is
the self-mapping of a representation node, or it is a push to the parent by
a mapped non-structure node (whose value is the node mapping, which is the
self-mapping when the node is a representation). -/
theorem upVisit_lookup (m : List (Nat × Nat)) (t : ITree) (p : Option ITree)
    (k v : Nat) (h : (upVisit m t p).lookup k = some v) :
    m.lookup k = some v ∨
    (t.kind = "representation" ∧ k = t.id ∧ v = t.id) ∨
    (∃ pp, p = some pp ∧ k = pp.id ∧ t.kind ≠ "structure" ∧
      (m.lookup t.id = some v ∨ (t.kind = "representation" ∧ v = t.id))) := by
  unfold upVisit at h
  dsimp only at h
  by_cases hrep : t.kind = "representation"
  · rw [if_pos hrep] at h
    rw [lookup_mset_self] at h
    cases p with
    | none =>
      dsimp only at h
      by_cases hk : k = t.id
      · right; left
        rw [hk, lookup_mset_self] at h
        exact ⟨hrep, hk, by injection h with hv; exact hv.symm⟩
      · left
        rw [lookup_mset_ne _ _ _ _ hk] at h
        exact h
    | some pp =>
      dsimp only at h
      by_cases hcond : t.kind ≠ "structure" ∧ ((mset m t.id t.id).lookup pp.id) = none
      · rw [if_pos hcond] at h
        by_cases hkp : k = pp.id
        · right; right
          rw [hkp, lookup_mset_self] at h
          exact ⟨pp, rfl, hkp, hcond.1, Or.inr ⟨hrep, by injection h with hv; exact hv.symm⟩⟩
        · rw [lookup_mset_ne _ _ _ _ hkp] at h
          by_cases hk : k = t.id
          · right; left
            rw [hk, lookup_mset_self] at h
            exact ⟨hrep, hk, by injection h with hv; exact hv.symm⟩
          · left
            rw [lookup_mset_ne _ _ _ _ hk] at h
            exact h
      · rw [if_neg hcond] at h
        by_cases hk : k = t.id
        · right; left
          rw [hk, lookup_mset_self] at h
          exact ⟨hrep, hk, by injection h with hv; exact hv.symm⟩
        · left
          rw [lookup_mset_ne _ _ _ _ hk] at h
          exact h
  · rw [if_neg hrep] at h
    cases hl : m.lookup t.id with
    | none =>
      rw [hl] at h
      cases p with
      | none => dsimp only at h; exact Or.inl h
      | some pp => dsimp only at h; exact Or.inl h
    | some v0 =>
      rw [hl] at h
      cases p with
      | none => dsimp only at h; exact Or.inl h
      | some pp =>
        dsimp only at h
        by_cases hcond : t.kind ≠ "structure" ∧ (m.lookup pp.id) = none
        · rw [if_pos hcond] at h
          by_cases hkp : k = pp.id
          · right; right
            rw [hkp, lookup_mset_self] at h
            refine ⟨pp, rfl, hkp, hcond.1, Or.inl ?_⟩
            injection h with hv
            rw [hv]
          · left
            rw [lookup_mset_ne _ _ _ _ hkp] at h
            exact h
        · rw [if_neg hcond] at h
          exact Or.inl h

theorem upVisit_lookup_ne (m : List (Nat × Nat)) (t : ITree) (p : Option ITree)
    (k : Nat) (hkt : k ≠ t.id) (hkp : ∀ pp, p = some pp → k ≠ pp.id) :
    (upVisit m t p).lookup k = m.lookup k := by
  unfold upVisit
  dsimp only
  by_cases hrep : t.kind = "representation"
  · rw [if_pos hrep, lookup_mset_self]
    cases p with
    | none => exact lookup_mset_ne _ _ _ _ hkt
    | some pp =>
      dsimp only
      by_cases hcond : t.kind ≠ "structure" ∧ ((mset m t.id t.id).lookup pp.id) = none
      · rw [if_pos hcond, lookup_mset_ne _ _ _ _ (hkp pp rfl), lookup_mset_ne _ _ _ _ hkt]
      · rw [if_neg hcond, lookup_mset_ne _ _ _ _ hkt]
  · rw [if_neg hrep]
    cases hl : m.lookup t.id with
    | none =>
      cases p with
      | none => rfl
      | some pp => rfl
    | some v0 =>
      cases p with
      | none => rfl
      | some pp =>
        dsimp only
        by_cases hcond : t.kind ≠ "structure" ∧ (m.lookup pp.id) = none
        · rw [if_pos hcond, lookup_mset_ne _ _ _ _ (hkp pp rfl)]
        · rw [if_neg hcond]

mutual
theorem up_frame_node : ∀ (t : ITree) (p : Option ITree) (m : List (Nat × Nat)) (k : Nat),
    k ∉ (subtreeNodes t).map ITree.id → (∀ pp, p = some pp → k ≠ pp.id) →
    (upNodeGo t p m).lookup k = m.lookup k
  | .node i kd pr cs, p, m, k => fun hk hp => by
    have hkt : k ≠ (ITree.node i kd pr cs).id := fun he =>
      hk (by rw [he]; exact List.mem_map_of_mem _ (List.mem_cons_self _ _))
    have hk2 : k ∉ (forestNodes cs).map ITree.id := fun hm =>
      hk (by simp only [subtreeNodes, List.map_cons]; exact List.mem_cons_of_mem _ hm)
    show (upVisit (upForestGo cs (.node i kd pr cs) m) (.node i kd pr cs) p).lookup k = _
    rw [upVisit_lookup_ne _ _ _ _ hkt hp]
    exact up_frame_forest cs (.node i kd pr cs) m k hk2 hkt
theorem up_frame_forest : ∀ (ts : TreeList) (parent : ITree) (m : List (Nat × Nat)) (k : Nat),
    k ∉ (forestNodes ts).map ITree.id → k ≠ parent.id →
    (upForestGo ts parent m).lookup k = m.lookup k
  | .nil, _, _, _ => fun _ _ => rfl
  | .cons t ts, parent, m, k => fun hk hkp => by
    have hk1 : k ∉ (subtreeNodes t).map ITree.id := fun hm =>
      hk (by simp only [forestNodes, List.map_append, List.mem_append]; exact Or.inl hm)
    have hk2 : k ∉ (forestNodes ts).map ITree.id := fun hm =>
      hk (by simp only [forestNodes, List.map_append, List.mem_append]; exact Or.inr hm)
    show (upForestGo ts parent (upNodeGo t (some parent) m)).lookup k = _
    rw [up_frame_forest ts parent _ k hk2 hkp]
    exact up_frame_node t (some parent) m k hk1
      (fun pp hpp => by injection hpp with he; rw [← he]; exact hkp)
end

mutual
/-- Soundness of the bottom-up pass on a subtree: any new entry belongs to a
node of the subtree that is a representation or has a non-structure child,
and its value is a representation inside that node.  A push to the parent
beyond the subtree is possible only when the subtree root is not a
structure node. -/
theorem up_sound_node : ∀ (t : ITree) (p : Option ITree) (m : List (Nat × Nat)),
    (∀ n' ∈ subtreeNodes t, m.lookup n'.id = none) →
    ((subtreeNodes t).map ITree.id).Nodup →
    (∀ pp, p = some pp → pp.id ∉ (subtreeNodes t).map ITree.id) →
    ∀ k v, (upNodeGo t p m).lookup k = some v →
      m.lookup k = some v ∨
      (∃ n ∈ subtreeNodes t, n.id = k ∧
        (n.kind = "representation" ∨ ∃ c ∈ TreeList.toList n.children, c.kind ≠ "structure") ∧
        ∃ rn ∈ subtreeNodes n, rn.kind = "representation" ∧ rn.id = v) ∨
      (∃ pp, p = some pp ∧ k = pp.id ∧ t.kind ≠ "structure" ∧
        ∃ rn ∈ subtreeNodes t, rn.kind = "representation" ∧ rn.id = v)
  | .node i kd pr cs, p, m => fun hfr hnd hp k v h => by
    set tno := ITree.node i kd pr cs with htno
    have hnd_cs : ((forestNodes cs).map ITree.id).Nodup := by
      simp only [htno, subtreeNodes, List.map_cons, List.nodup_cons] at hnd
      exact hnd.2
    have hni : i ∉ (forestNodes cs).map ITree.id := by
      simp only [htno, subtreeNodes, List.map_cons, List.nodup_cons] at hnd
      exact hnd.1
    have hfr_cs : ∀ n' ∈ forestNodes cs, m.lookup n'.id = none := fun n' hn' =>
      hfr n' (List.mem_cons_of_mem _ hn')
    have hforest := up_sound_forest cs tno m hfr_cs hnd_cs hni
    -- classify an entry of the forest result
    have hmc : ∀ k' v', (upForestGo cs tno m).lookup k' = some v' →
        m.lookup k' = some v' ∨
        (∃ n ∈ subtreeNodes tno, n.id = k' ∧
          (n.kind = "representation" ∨ ∃ c ∈ TreeList.toList n.children, c.kind ≠ "structure") ∧
          ∃ rn ∈ subtreeNodes n, rn.kind = "representation" ∧ rn.id = v') := by
      intro k' v' h'
      rcases hforest k' v' h' with h1 | h2 | h3
      · exact Or.inl h1
      · right
        obtain ⟨n, hn, rest⟩ := h2
        exact ⟨n, List.mem_cons_of_mem _ hn, rest⟩
      · right
        obtain ⟨pp2, hpp2, hkp, c, hc, hck, rn, hrn, hrnk, hrnv⟩ := h3
        injection hpp2 with hppe
        refine ⟨tno, mem_subtreeNodes_self tno, by rw [hkp, ← hppe], ?_, ?_⟩
        · exact Or.inr ⟨c, hc, hck⟩
        · exact ⟨rn, subtree_mem_trans tno c (mem_subtreeNodes_of_child tno c hc) rn hrn,
            hrnk, hrnv⟩
    -- now analyse the final visit
    have hv := upVisit_lookup (upForestGo cs tno m) tno p k v h
    rcases hv with h1 | h2 | h3
    · -- carried over from the forest result
      rcases hmc k v h1 with hm1 | hm2
      · exact Or.inl hm1
      · exact Or.inr (Or.inl hm2)
    · -- self-mapping of a representation root
      right; left
      exact ⟨tno, mem_subtreeNodes_self tno, h2.2.1.symm ▸ rfl, Or.inl h2.1,
        tno, mem_subtreeNodes_self tno, h2.1, h2.2.2.symm⟩
    · -- push to the parent
      obtain ⟨pp, hpp, hkpp, hkind, hval⟩ := h3
      right; right
      refine ⟨pp, hpp, hkpp, hkind, ?_⟩
      rcases hval with hv1 | hv2
      · -- the pushed value was the root mapping computed by the forest pass
        rcases hmc tno.id v hv1 with hm1 | hm2
        · exact absurd hm1 (by rw [hfr tno (mem_subtreeNodes_self tno)]; simp)
        · obtain ⟨n, hn, hnid, _, rn, hrn, hrnk, hrnv⟩ := hm2
          rcases List.mem_cons.mp hn with he | hdeep
          · rw [he] at hrn
            exact ⟨rn, hrn, hrnk, hrnv⟩
          · have hmm := List.mem_map_of_mem ITree.id hdeep
            rw [hnid] at hmm
            exact absurd hmm hni
      · exact ⟨tno, mem_subtreeNodes_self tno, hv2.1, hv2.2.symm⟩
theorem up_sound_forest : ∀ (ts : TreeList) (parent : ITree) (m : List (Nat × Nat)),
    (∀ n' ∈ forestNodes ts, m.lookup n'.id = none) →
    ((forestNodes ts).map ITree.id).Nodup →
    parent.id ∉ (forestNodes ts).map ITree.id →
    ∀ k v, (upForestGo ts parent m).lookup k = some v →
      m.lookup k = some v ∨
      (∃ n ∈ forestNodes ts, n.id = k ∧
        (n.kind = "representation" ∨ ∃ c ∈ TreeList.toList n.children, c.kind ≠ "structure") ∧
        ∃ rn ∈ subtreeNodes n, rn.kind = "representation" ∧ rn.id = v) ∨
      (∃ pp, (some parent : Option ITree) = some pp ∧ k = pp.id ∧
        ∃ c ∈ TreeList.toList ts, c.kind ≠ "structure" ∧
        ∃ rn ∈ subtreeNodes c, rn.kind = "representation" ∧ rn.id = v)
  | .nil, _, _ => fun _ _ _ k v h => Or.inl h
  | .cons t ts, parent, m => fun hfr hnd hpar k v h => by
    have hnd1 : ((subtreeNodes t).map ITree.id).Nodup := by
      simp only [forestNodes, List.map_append] at hnd
      exact hnd.of_append_left
    have hnd2 : ((forestNodes ts).map ITree.id).Nodup := by
      simp only [forestNodes, List.map_append] at hnd
      exact hnd.of_append_right
    have hdisj : ((subtreeNodes t).map ITree.id).Disjoint ((forestNodes ts).map ITree.id) := by
      simp only [forestNodes, List.map_append] at hnd
      exact List.disjoint_of_nodup_append hnd
    have hpar1 : parent.id ∉ (subtreeNodes t).map ITree.id := fun hm =>
      hpar (by simp only [forestNodes, List.map_append, List.mem_append]; exact Or.inl hm)
    have hpar2 : parent.id ∉ (forestNodes ts).map ITree.id := fun hm =>
      hpar (by simp only [forestNodes, List.map_append, List.mem_append]; exact Or.inr hm)
    have hfr1 : ∀ n' ∈ subtreeNodes t, m.lookup n'.id = none := fun n' hn' =>
      hfr n' (List.mem_append.mpr (Or.inl hn'))
    have hfr2 : ∀ n' ∈ forestNodes ts, (upNodeGo t (some parent) m).lookup n'.id = none := by
      intro n' hn'
      rw [up_frame_node t (some parent) m n'.id
        (fun hm => hdisj hm (List.mem_map_of_mem _ hn'))
        (fun pp hpp => by
          injection hpp with he
          rw [← he]
          intro hc
          exact hpar2 (hc ▸ List.mem_map_of_mem _ hn'))]
      exact hfr n' (List.mem_append.mpr (Or.inr hn'))
    have hrest := up_sound_forest ts parent (upNodeGo t (some parent) m) hfr2 hnd2 hpar2 k v h
    rcases hrest with h1 | h2 | h3
    · -- classify the entry of the first subtree pass
      rcases up_sound_node t (some parent) m hfr1 hnd1
        (fun pp hpp => by injection hpp with he; rw [← he]; exact hpar1) k v h1 with
        g1 | g2 | g3
      · exact Or.inl g1
      · right; left
        obtain ⟨n, hn, rest⟩ := g2
        exact ⟨n, List.mem_append.mpr (Or.inl hn), rest⟩
      · right; right
        obtain ⟨pp, hpp, hkpp, hkind, rn, hrn, hrnk, hrnv⟩ := g3
        injection hpp with he
        refine ⟨parent, rfl, by rw [hkpp, ← he], t, List.mem_cons_self _ _, hkind, rn, hrn, hrnk, hrnv⟩
    · right; left
      obtain ⟨n, hn, rest⟩ := h2
      exact ⟨n, List.mem_append.mpr (Or.inr hn), rest⟩
    · right; right
      obtain ⟨pp, hpp, hkpp, c, hc, rest⟩ := h3
      exact ⟨pp, hpp, hkpp, c, List.mem_cons_of_mem _ hc, rest⟩
end

/-- Claim C3 (amended): every entry of the map built by the bottom-up pass
of `makeNearestReprMap` maps a node of the tree to a representation node
inside that node's own subtree (the first one propagated in document order,
which need not be the nearest by depth), and only nodes that are themselves
representations or have a non-structure child are assigned: a structure
node may receive a mapping from its children, but never pushes a mapping to
its parent. -/
theorem claim3_thm (t : ITree) (hnd : NoDupIds t) (k v : Nat)
    (hk : (nearestReprUpMap t).lookup k = some v) :
    ∃ n ∈ allNodes t, n.id = k ∧
      (n.kind = "representation" ∨ ∃ c ∈ TreeList.toList n.children, c.kind ≠ "structure") ∧
      ∃ rn ∈ subtreeNodes n, rn.kind = "representation" ∧ rn.id = v := by
  have hres := up_sound_node t none [] (fun _ _ => rfl) hnd
    (fun pp hpp => Option.noConfusion hpp) k v hk
  rcases hres with h1 | h2 | h3
  · exact absurd h1 (by simp)
  · exact h2
  · obtain ⟨pp, hpp, _⟩ := h3
    exact Option.noConfusion hpp

/-- Witness for C3: in `c3Tree` the bottom-up pass maps the structure root
(id 1) to the representation with id 3. -/
theorem claim3_w :
    ∃ n ∈ allNodes c3Tree, n.id = 1 ∧
      (n.kind = "representation" ∨ ∃ c ∈ TreeList.toList n.children, c.kind ≠ "structure") ∧
      ∃ rn ∈ subtreeNodes n, rn.kind = "representation" ∧ rn.id = 3 :=
  claim3_thm c3Tree (by decide) 1 3 rfl

/-- Claim C3 counterexample: in `c3Tree` the bottom-up pass assigns the
structure node (id 1) the representation id 3, although representation
id 4 is a direct child of the structure node while id 3 sits two levels
below: a structure node is assigned by the upward push, and the propagated
representation is the first in document order, not the lowest (nearest). -/
theorem claim3_cex :
    (nearestReprUpMap c3Tree).lookup (1 : Nat) = some 3 ∧
    c3Tree.kind = "structure" ∧ c3Tree.id = 1 ∧
    TreeList.toList c3Tree.children =
      [ITree.node 2 "component" {} (.cons (.node 3 "representation" {} .nil) .nil),
       ITree.node 4 "representation" {} .nil] ∧
    (3 : Nat) ≠ 4 := by
  refine ⟨rfl, rfl, rfl, rfl, by decide⟩

end MVSpec
